import Mathlib

/-!
Verification development for the Research2Presentation section-segmentation and
bullet-extraction pipeline (src/paper2ppt_core/sections.py, src/paper2ppt_cli.py,
src/archive/paper2ppt.py).  Python strings are modelled as `List Char`; Python's
regular expressions are translated into explicit deterministic scanners that
implement exactly the matching the patterns perform on the inputs in question.
-/

set_option maxRecDepth 20000

abbrev Str := List Char

theorem len_dropWhile_le (p : Char → Bool) (l : List Char) :
    (l.dropWhile p).length ≤ l.length :=
  (List.dropWhile_suffix p).length_le

def s2l (s : String) : Str := s.toList

/-- Python whitespace for `str.strip` / `str.split` / `\s` (ASCII range:
space, tab, newline, carriage return, vertical tab, form feed). -/
def isWs (c : Char) : Bool :=
  c.toNat = 32 || c.toNat = 9 || c.toNat = 10 || c.toNat = 13 ||
    c.toNat = 11 || c.toNat = 12

def isDig (c : Char) : Bool := Nat.ble 48 c.toNat && Nat.ble c.toNat 57

def isLowerA (c : Char) : Bool := Nat.ble 97 c.toNat && Nat.ble c.toNat 122

def isUpperA (c : Char) : Bool := Nat.ble 65 c.toNat && Nat.ble c.toNat 90

def isAlpha (c : Char) : Bool := isLowerA c || isUpperA c

/-- `\w` word character (ASCII view). -/
def isWordC (c : Char) : Bool := isAlpha c || isDig c || c = '_'

def toLowerC (c : Char) : Char :=
  if isUpperA c then Char.ofNat (c.toNat + 32) else c

def toUpperC (c : Char) : Char :=
  if isLowerA c then Char.ofNat (c.toNat - 32) else c

def lowerS (l : Str) : Str := l.map toLowerC

theorem char_toNat_ofNat (n : Nat) (h : n.isValidChar) : (Char.ofNat n).toNat = n := by
  simp only [Char.ofNat, h, dif_pos]
  rfl

theorem char_ofNat_toNat (c : Char) : Char.ofNat c.toNat = c := by
  have h : c.val.toNat.isValidChar := c.valid
  simp only [Char.toNat, Char.ofNat, h, dif_pos]
  apply Char.eq_of_val_eq
  apply UInt32.eq_of_toBitVec_eq
  apply BitVec.eq_of_toNat_eq
  rfl

theorem valid_of_lt (n : Nat) (h : n < 55296) : n.isValidChar := Or.inl h

theorem toUpperC_toNat (c : Char) (h : isLowerA c = true) :
    (toUpperC c).toNat = c.toNat - 32 := by
  have h1 : 97 ≤ c.toNat := Nat.le_of_ble_eq_true (Bool.and_elim_left h)
  have h2 : c.toNat ≤ 122 := Nat.le_of_ble_eq_true (Bool.and_elim_right h)
  simp only [toUpperC, h, if_true]
  exact char_toNat_ofNat _ (valid_of_lt _ (by omega))

theorem toLowerC_toNat (c : Char) (h : isUpperA c = true) :
    (toLowerC c).toNat = c.toNat + 32 := by
  have h1 : 65 ≤ c.toNat := Nat.le_of_ble_eq_true (Bool.and_elim_left h)
  have h2 : c.toNat ≤ 90 := Nat.le_of_ble_eq_true (Bool.and_elim_right h)
  simp only [toLowerC, h, if_true]
  exact char_toNat_ofNat _ (valid_of_lt _ (by omega))

theorem isWs_iff (c : Char) :
    isWs c = true ↔ (c.toNat = 32 ∨ c.toNat = 9 ∨ c.toNat = 10 ∨ c.toNat = 13 ∨
      c.toNat = 11 ∨ c.toNat = 12) := by
  simp only [isWs, Bool.or_eq_true, decide_eq_true_eq]
  tauto

theorem isWs_toUpperC (c : Char) : isWs (toUpperC c) = isWs c := by
  by_cases h : isLowerA c = true
  · have h1 : 97 ≤ c.toNat := Nat.le_of_ble_eq_true (Bool.and_elim_left h)
    have h2 : c.toNat ≤ 122 := Nat.le_of_ble_eq_true (Bool.and_elim_right h)
    have ht := toUpperC_toNat c h
    have ha : isWs (toUpperC c) = false := by
      rw [Bool.eq_false_iff]
      intro hw
      have := (isWs_iff _).mp hw
      rw [ht] at this
      omega
    have hb : isWs c = false := by
      rw [Bool.eq_false_iff]
      intro hw
      have := (isWs_iff _).mp hw
      omega
    rw [ha, hb]
  · have hf : isLowerA c = false := by simpa using h
    simp [toUpperC, hf]

theorem isWs_toLowerC (c : Char) : isWs (toLowerC c) = isWs c := by
  by_cases h : isUpperA c = true
  · have h1 : 65 ≤ c.toNat := Nat.le_of_ble_eq_true (Bool.and_elim_left h)
    have h2 : c.toNat ≤ 90 := Nat.le_of_ble_eq_true (Bool.and_elim_right h)
    have ht := toLowerC_toNat c h
    have ha : isWs (toLowerC c) = false := by
      rw [Bool.eq_false_iff]
      intro hw
      have := (isWs_iff _).mp hw
      rw [ht] at this
      omega
    have hb : isWs c = false := by
      rw [Bool.eq_false_iff]
      intro hw
      have := (isWs_iff _).mp hw
      omega
    rw [ha, hb]
  · have hf : isUpperA c = false := by simpa using h
    simp [toLowerC, hf]

theorem toLowerC_toUpperC (c : Char) : toLowerC (toUpperC c) = toLowerC c := by
  by_cases h : isLowerA c = true
  · have h1 : 97 ≤ c.toNat := Nat.le_of_ble_eq_true (Bool.and_elim_left h)
    have h2 : c.toNat ≤ 122 := Nat.le_of_ble_eq_true (Bool.and_elim_right h)
    have ht := toUpperC_toNat c h
    have hu : isUpperA (toUpperC c) = true := by
      simp only [isUpperA, ht, Bool.and_eq_true]
      exact ⟨Nat.ble_eq_true_of_le (by omega), Nat.ble_eq_true_of_le (by omega)⟩
    have hcu : isUpperA c = false := by
      rw [Bool.eq_false_iff]
      intro hcontra
      have := Nat.le_of_ble_eq_true (Bool.and_elim_right hcontra)
      omega
    calc toLowerC (toUpperC c)
        = Char.ofNat ((toUpperC c).toNat + 32) := by simp [toLowerC, hu]
      _ = Char.ofNat c.toNat := by
          rw [ht]
          congr 1
          omega
      _ = c := char_ofNat_toNat c
      _ = toLowerC c := by simp [toLowerC, hcu]
  · have hf : isLowerA c = false := by simpa using h
    simp [toUpperC, hf]

/-- Python `s[0].upper() + s[1:]` (identity on the empty string, which the
source never reaches on that line). -/
def upperFirst : Str → Str
  | [] => []
  | c :: cs => toUpperC c :: cs

def lstrip (l : Str) : Str := l.dropWhile (fun c => isWs c)

def rstripWs (l : Str) : Str := (l.reverse.dropWhile (fun c => isWs c)).reverse

/-- Python `str.strip()`. -/
def pyStrip (l : Str) : Str := rstripWs (lstrip l)

/-- Python `str.rstrip(chars)`. -/
def rstripSet (set : List Char) (l : Str) : Str :=
  (l.reverse.dropWhile (fun c => set.contains c)).reverse

/-- Python `re.sub(r"\s+", " ", ·)`: every maximal whitespace run becomes one
space.  The flag records whether the previous character was whitespace (whose
run has already emitted its space). -/
def collapseGo : Bool → Str → Str
  | _, [] => []
  | inWs, c :: cs =>
    if isWs c then
      if inWs then collapseGo true cs else ' ' :: collapseGo true cs
    else c :: collapseGo false cs

def collapseWs (l : Str) : Str := collapseGo false l

/-- Word-count state machine: the flag records whether the previous position
was a word boundary (start of string or whitespace). -/
def wcGo : Bool → Str → Nat
  | _, [] => 0
  | pstart, c :: cs =>
    if isWs c then wcGo true cs
    else (if pstart then 1 else 0) + wcGo false cs

/-- `len(s.split())` in Python. -/
def wc (l : Str) : Nat := wcGo true l

/-- Python `str.startswith`. -/
def sw : Str → Str → Bool
  | _, [] => true
  | [], _ :: _ => false
  | c :: cs, p :: ps => c = p && sw cs ps

/-- Python `str.endswith`. -/
def ew (l p : Str) : Bool :=
  Nat.ble p.length l.length && (l.drop (l.length - p.length) == p)

/-- Python `pat in s` (substring test). -/
def containsSub : Str → Str → Bool
  | [], pat => pat.isEmpty
  | c :: cs, pat => sw (c :: cs) pat || containsSub cs pat

/-- Python `str.split()` (split on whitespace runs, dropping empties); the
accumulator holds the current word reversed. -/
def splitWsGo (acc : Str) : Str → List Str
  | [] =>
    (match acc with
     | [] => []
     | _ => [acc.reverse])
  | c :: cs =>
    if isWs c then
      match acc with
      | [] => splitWsGo [] cs
      | _ => acc.reverse :: splitWsGo [] cs
    else splitWsGo (c :: acc) cs

def splitWs (l : Str) : List Str := splitWsGo [] l

/-- Python `str.splitlines()` (for `\n`, `\r\n`, `\r`); no trailing empty
line after a final line break. -/
def splitLinesGo (acc : Str) : Str → List Str
  | [] => [acc.reverse]
  | '\r' :: '\n' :: r =>
    acc.reverse ::
      (match r with
       | [] => []
       | _ => splitLinesGo [] r)
  | '\r' :: r =>
    acc.reverse ::
      (match r with
       | [] => []
       | _ => splitLinesGo [] r)
  | '\n' :: r =>
    acc.reverse ::
      (match r with
       | [] => []
       | _ => splitLinesGo [] r)
  | c :: cs => splitLinesGo (c :: acc) cs

def splitLines : Str → List Str
  | [] => []
  | l => splitLinesGo [] l

def natOfDigits (l : Str) : Nat :=
  l.foldl (fun acc c => acc * 10 + (c.toNat - 48)) 0

/-- Python `str.title()` restricted to ASCII letters as the cased characters. -/
def pyTitleGo : Bool → Str → Str
  | _, [] => []
  | prevAlpha, c :: cs =>
    (if isAlpha c then (if prevAlpha then toLowerC c else toUpperC c) else c) ::
      pyTitleGo (isAlpha c) cs

def pyTitle (l : Str) : Str := pyTitleGo false l

/-!  ## src/paper2ppt_core/sections.py  -/

/-- Matches a word sequence separated by `\s+`; returns the remainder. -/
def matchWords : List Str → Str → Option Str
  | [], r => some r
  | [w], r => if sw r w then some (r.drop w.length) else none
  | w :: w2 :: ws, r =>
    if sw r w then
      let r2 := (r.drop w.length)
      if (r2.takeWhile (fun c => isWs c)).isEmpty then none
      else matchWords (w2 :: ws) (r2.dropWhile (fun c => isWs c))
    else none

/-- Optional `\d+(?:\.\d+)*` groups after the leading digits: consumes
`('.' digits+)*`, stopping (with the dot left in place) when no digit
follows.  Each group consumes at least two characters, so `length` fuel is
always enough. -/
def numGroupsGo : Nat → Str → Str
  | 0, r => r
  | f + 1, '.' :: r =>
    if (r.takeWhile (fun c => isDig c)).isEmpty then '.' :: r
    else numGroupsGo f (r.dropWhile (fun c => isDig c))
  | _ + 1, r => r

def numGroups (r : Str) : Str := numGroupsGo r.length r

/-- `^\s*(\d+(?:\.\d+)*)?\s*` — strips leading whitespace and an optional
numeric outline prefix, then more whitespace. -/
def stripNumPrefix (l : Str) : Str :=
  let r1 := lstrip l
  let d := r1.takeWhile (fun c => isDig c)
  if d.isEmpty then r1 else lstrip (numGroups (r1.dropWhile (fun c => isDig c)))

/-- One alternation group of HEADING_PATTERNS applied after the numeric
prefix: keyword words (joined by `\s+`), then `\s*$`. -/
def kwTail (kws : List (List Str)) (r : Str) : Bool :=
  kws.any (fun kw =>
    match matchWords kw r with
    | some rest => rest.all (fun c => isWs c)
    | none => false)

def headingKeywordGroups : List (List (List Str)) :=
  [ [[s2l ("abstract")]],
    [[s2l ("introduction")]],
    [[s2l ("background")]],
    [[s2l ("related"), s2l ("work")]],
    [[s2l ("method")], [s2l ("methodology")], [s2l ("approach")], [s2l ("model")]],
    [[s2l ("experiment")], [s2l ("experiments")], [s2l ("result")], [s2l ("results")],
     [s2l ("evaluation")], [s2l ("analysis")]],
    [[s2l ("conclusion")], [s2l ("future"), s2l ("work")], [s2l ("limitations")]],
    [[s2l ("references")], [s2l ("bibliography")]] ]

/-- `re.match(pat, l, flags=IGNORECASE)` over HEADING_PATTERNS. -/
def headingPatternsMatch (l : Str) : Bool :=
  let low := lowerS l
  headingKeywordGroups.any (fun g => kwTail g (stripNumPrefix low))

/-- `^\s*\d+(\.\d+)*\s+[A-Z][A-Za-z\s]{2,60}$` (case-sensitive). -/
def numberedHeading (l : Str) : Bool :=
  let r0 := lstrip l
  if (r0.takeWhile (fun c => isDig c)).isEmpty then false
  else
    let r1 := numGroups (r0.dropWhile (fun c => isDig c))
    if (r1.takeWhile (fun c => isWs c)).isEmpty then false
    else
      match r1.dropWhile (fun c => isWs c) with
      | [] => false
      | c :: rest =>
        isUpperA c && Nat.ble 2 rest.length && Nat.ble rest.length 60 &&
          rest.all (fun x => isAlpha x || isWs x)

def affiliationTokens : List Str :=
  [s2l ("research"), s2l ("university"), s2l ("institute"), s2l ("department"),
   s2l ("laboratory"), s2l ("corporation"), s2l ("inc."), s2l ("ltd"),
   s2l ("school"), s2l ("college"), s2l ("faculty"), s2l ("center"),
   s2l ("centre"), s2l ("group"), s2l ("association")]

/-- `is_heading_line` from src/paper2ppt_core/sections.py. -/
def isHeadingLine (line : Str) : Bool :=
  if line.isEmpty then false
  else
    let l := pyStrip line
    if !(Nat.ble 3 l.length && Nat.ble l.length 80) then false
    else if headingPatternsMatch l then true
    else if numberedHeading l then
      if affiliationTokens.any (fun x => containsSub (lowerS l) x) then false
      else true
    else false

/-- `normalize_heading` from src/paper2ppt_core/sections.py. -/
def normalizeHeading (h : Str) : Str :=
  let s0 := lowerS h
  let s1 := s0.map (fun c => if isLowerA c || isDig c || c = ' ' then c else ' ')
  let s := pyStrip (collapseWs s1)
  if containsSub s (s2l ("abstract")) then s2l ("abstract")
  else if containsSub s (s2l ("introduction")) then s2l ("introduction")
  else if containsSub s (s2l ("background")) then s2l ("background")
  else if containsSub s (s2l ("related work")) then s2l ("related work")
  else if containsSub s (s2l ("method")) || containsSub s (s2l ("approach")) ||
          containsSub s (s2l ("model")) then s2l ("method")
  else if containsSub s (s2l ("experiment")) || containsSub s (s2l ("dataset")) then
    s2l ("experiments")
  else if containsSub s (s2l ("result")) || containsSub s (s2l ("analysis")) then
    s2l ("results")
  else if containsSub s (s2l ("conclusion")) || containsSub s (s2l ("limitation")) then
    s2l ("conclusion")
  else s2l ("section")

/-- `\[\s*\d+(?:\s*,\s*\d+)*\s*\]` after the leading digits: consumes the
comma groups and the closing bracket, returning the remainder. -/
def citeAfterDigitsGo : Nat → Str → Option Str
  | 0, _ => none
  | f + 1, r =>
    match r.dropWhile (fun c => isWs c) with
    | ',' :: b =>
      if ((b.dropWhile (fun x => isWs x)).takeWhile (fun x => isDig x)).isEmpty then none
      else citeAfterDigitsGo f ((b.dropWhile (fun x => isWs x)).dropWhile (fun x => isDig x))
    | ']' :: rest => some rest
    | _ => none

/-- Each comma group consumes at least one character, so `r.length + 1` fuel
is always enough. -/
def citeAfterDigits (r : Str) : Option Str := citeAfterDigitsGo (r.length + 1) r

/-- Tries `\[\s*\d+(?:\s*,\s*\d+)*\s*\]` at the head; returns remainder. -/
def tryCiteRem : Str → Option Str
  | '[' :: r =>
    let a := r.dropWhile (fun c => isWs c)
    if (a.takeWhile (fun c => isDig c)).isEmpty then none
    else citeAfterDigits (a.dropWhile (fun c => isDig c))
  | _ => none

def removeCitesGo : Nat → Str → Str
  | 0, l => l
  | _ + 1, [] => []
  | f + 1, c :: cs =>
    match tryCiteRem (c :: cs) with
    | some rest => ' ' :: removeCitesGo f rest
    | none => c :: removeCitesGo f cs

def removeCites (l : Str) : Str := removeCitesGo l.length l

/-- Tries `https?://\S+|doi:\S+|arXiv:\S+` at the head; returns remainder. -/
def tryUrlRem (l : Str) : Option Str :=
  let afterScheme : Str → Option Str := fun r =>
    match r.takeWhile (fun c => !isWs c), r.dropWhile (fun c => !isWs c) with
    | [], _ => none
    | _ :: _, rest => some rest
  if sw l (s2l ("https://")) then afterScheme (l.drop 8)
  else if sw l (s2l ("http://")) then afterScheme (l.drop 7)
  else if sw l (s2l ("doi:")) then afterScheme (l.drop 4)
  else if sw l (s2l ("arXiv:")) then afterScheme (l.drop 6)
  else none

def removeUrlsGo : Nat → Str → Str
  | 0, l => l
  | _ + 1, [] => []
  | f + 1, c :: cs =>
    match tryUrlRem (c :: cs) with
    | some rest => ' ' :: removeUrlsGo f rest
    | none => c :: removeUrlsGo f cs

def removeUrls (l : Str) : Str := removeUrlsGo l.length l

/-- `clean_academic_noise` from src/paper2ppt_core/sections.py. -/
def cleanAcademicNoise (t : Str) : Str :=
  if t.isEmpty then []
  else pyStrip (collapseWs (removeUrls (removeCites t)))

structure PSec where
  title : Str
  raw_title : Str
  text : Str
  pages : List Nat
  first_page : Nat
deriving DecidableEq, Repr

/-- `[ln.strip() for ln in (ptxt or "").splitlines() if ln.strip()]` -/
def pageLines (ptxt : Str) : List Str :=
  ((splitLines ptxt).map pyStrip).filter (fun l => !l.isEmpty)

def addPage (ps : List Nat) (i : Nat) : List Nat :=
  if ps.contains i then ps else ps ++ [i]

def pushCurrent (cur : Option PSec) (acc : List PSec) : List PSec :=
  match cur with
  | some c => if (pyStrip c.text).isEmpty then acc else acc ++ [c]
  | none => acc

/-- Inner loop of `split_into_sections` over the lines of page `i`. -/
def lineLoop (i : Nat) : List Str → Option PSec → List PSec → Option PSec × List PSec
  | [], cur, acc => (cur, acc)
  | ln :: rest, cur, acc =>
    if isHeadingLine ln then
      lineLoop i rest (some ⟨normalizeHeading ln, pyStrip ln, [], [i], i⟩)
        (pushCurrent cur acc)
    else
      match cur with
      | none => lineLoop i rest none acc
      | some c =>
        lineLoop i rest
          (some { c with text := c.text ++ ' ' :: ln, pages := addPage c.pages i }) acc

def pagesLoop : Nat → List Str → Option PSec → List PSec → Option PSec × List PSec
  | _, [], cur, acc => (cur, acc)
  | i, p :: rest, cur, acc =>
    let r := lineLoop i (pageLines p) cur acc
    pagesLoop (i + 1) rest r.1 r.2

/-- `split_into_sections` from src/paper2ppt_core/sections.py. -/
def splitIntoSections (pagesText : List Str) : List PSec :=
  let r := pagesLoop 0 pagesText none []
  let secs := pushCurrent r.1 r.2
  (secs.map (fun s => { s with text := cleanAcademicNoise s.text })).filter
    (fun s => Nat.ble 50 s.text.length ||
      s.title = s2l ("abstract") || s.title = s2l ("conclusion"))

/-!  ## src/archive/paper2ppt.py (heading detection only)  -/

/-- `^\d+(\.\d+)*\s+[A-Za-z]` via `re.match` (prefix match). -/
def archNumbered (l : Str) : Bool :=
  if (l.takeWhile (fun c => isDig c)).isEmpty then false
  else
    let r1 := numGroups (l.dropWhile (fun c => isDig c))
    if (r1.takeWhile (fun c => isWs c)).isEmpty then false
    else
      match r1.dropWhile (fun c => isWs c) with
      | [] => false
      | c :: _ => isAlpha c

/-- `is_heading_line` from src/archive/paper2ppt.py. -/
def archIsHeadingLine (line : Str) : Bool :=
  let l := pyStrip line
  if Nat.blt 120 l.length then false
  else if lowerS l = s2l ("abstract") || lowerS l = s2l ("introduction") then true
  else archNumbered l

/-!  ## src/paper2ppt_cli.py — constants and text normalization  -/

def MAX_BULLET_WORDS : Nat := 60
def MIN_BULLET_WORDS : Nat := 6
def MAX_BULLETS_PER_SLIDE : Nat := 6
def MIN_BULLETS_PER_SLIDE : Nat := 3
def MAX_MODEL_CHARS : Nat := 12000
/-- `MAX_FIGURES_PER_SLIDE` from src/paper2ppt_core/pptx_builder.py. -/
def MAX_FIGURES_PER_SLIDE : Nat := 2

def SKIP_SECTIONS : List Str :=
  [s2l ("references"), s2l ("acknowledgements"), s2l ("appendix"), s2l ("supplementary")]

def SECTION_MAP : List (Str × Str) :=
  [(s2l ("abstract"), s2l ("Overview")),
   (s2l ("introduction"), s2l ("Introduction")),
   (s2l ("background"), s2l ("Background")),
   (s2l ("related work"), s2l ("Related Work")),
   (s2l ("method"), s2l ("Method")),
   (s2l ("model"), s2l ("Method")),
   (s2l ("architecture"), s2l ("Method")),
   (s2l ("approach"), s2l ("Method")),
   (s2l ("experiment"), s2l ("Experiments")),
   (s2l ("evaluation"), s2l ("Results")),
   (s2l ("result"), s2l ("Results")),
   (s2l ("discussion"), s2l ("Discussion")),
   (s2l ("conclusion"), s2l ("Conclusion"))]

def SECTION_TARGET_BULLETS : List (Str × Nat) :=
  [(s2l ("Overview"), 4), (s2l ("Introduction"), 6), (s2l ("Background"), 4),
   (s2l ("Related Work"), 4), (s2l ("Method"), 8), (s2l ("Results"), 6),
   (s2l ("Conclusion"), 4)]

def targetLookup (secName : Str) : Option Nat :=
  (SECTION_TARGET_BULLETS.find? (fun p => p.1 = secName)).map (fun p => p.2)

def sectionMapGo : List (Str × Str) → Str → Str → Str
  | [], _, title => pyTitle title
  | (k, v) :: rest, t, title => if containsSub t k then v else sectionMapGo rest t title

/-- `normalize_section` from src/paper2ppt_cli.py. -/
def normalizeSection (title : Str) : Str := sectionMapGo SECTION_MAP (lowerS title) title

/-- Tries `\n?\d+(\.\d+)*\s+[A-Z][A-Za-z\s\-]{3,}` at the head; returns the
remainder after the (greedy) match. -/
def tryPdfHeadCore (r : Str) : Option Str :=
  if (r.takeWhile (fun c => isDig c)).isEmpty then none
  else
    let r1 := numGroups (r.dropWhile (fun c => isDig c))
    if (r1.takeWhile (fun c => isWs c)).isEmpty then none
    else
      match r1.dropWhile (fun c => isWs c) with
      | [] => none
      | c :: rest =>
        if isUpperA c then
          if Nat.ble 3 (rest.takeWhile (fun x => isAlpha x || isWs x || x = '-')).length then
            some (rest.dropWhile (fun x => isAlpha x || isWs x || x = '-'))
          else none
        else none

def tryPdfHead : Str → Option Str
  | '\n' :: r => tryPdfHeadCore r
  | r => tryPdfHeadCore r

def pdfScanGo : Nat → Str → Str
  | 0, l => l
  | _ + 1, [] => []
  | f + 1, c :: cs =>
    match tryPdfHead (c :: cs) with
    | some rest => ' ' :: pdfScanGo f rest
    | none => c :: pdfScanGo f cs

/-- `normalize_pdf_text` from src/paper2ppt_cli.py. -/
def normalizePdfText (text : Str) : Str :=
  let t1 := pdfScanGo text.length text
  let t2 := t1.map (fun c => if c = '\n' then ' ' else c)
  pyStrip (collapseWs t2)

/-- `re.split(r'(?<=[.!?])\s+', ·)`: accumulates the current piece (reversed)
and splits at a whitespace run preceded by sentence-terminal punctuation;
when `skip` is set the split's whitespace run is being consumed. -/
def sentGo (skip : Bool) (acc : Str) : Str → List Str
  | [] => [acc.reverse]
  | c :: cs =>
    if skip then
      if isWs c then sentGo true acc cs else sentGo false [c] cs
    else if isWs c &&
        (match acc with
         | p :: _ => p = '.' || p = '!' || p = '?'
         | [] => false) then
      acc.reverse :: sentGo true [] cs
    else sentGo false (c :: acc) cs

/-- `extract_sentences` from src/paper2ppt_cli.py. -/
def extractSentences (text : Str) : List Str :=
  (sentGo false [] text).filterMap
    (fun s => if Nat.ble 8 (wc s) && Nat.ble (wc s) 80 then some (pyStrip s) else none)

/-!  ## src/paper2ppt_cli.py — `rewrite_bullet`  -/

/-- `re.sub(r'(\w)-\s+(\w)', r'\1\2', ·)`. -/
def hyphenFixGo : Nat → Str → Str
  | 0, l => l
  | _ + 1, [] => []
  | f + 1, c1 :: cs =>
    match cs with
    | '-' :: rest =>
      if isWordC c1 && !(rest.takeWhile (fun x => isWs x)).isEmpty then
        match rest.dropWhile (fun x => isWs x) with
        | c2 :: r2 =>
          if isWordC c2 then c1 :: c2 :: hyphenFixGo f r2
          else c1 :: hyphenFixGo f cs
        | [] => c1 :: hyphenFixGo f cs
      else c1 :: hyphenFixGo f cs
    | _ => c1 :: hyphenFixGo f cs

def hyphenFix (l : Str) : Str := hyphenFixGo l.length l

def connectives1 : List Str :=
  [s2l ("however"), s2l ("therefore"), s2l ("thus"), s2l ("moreover"),
   s2l ("furthermore"), s2l ("consequently"), s2l ("hence"), s2l ("accordingly"),
   s2l ("specifically"), s2l ("notably"), s2l ("importantly"),
   s2l ("interestingly"), s2l ("finally"), s2l ("additionally")]

def connectives2 : List Str :=
  [s2l ("in this paper"), s2l ("in this work"), s2l ("we show that"),
   s2l ("we demonstrate that"), s2l ("we find that"), s2l ("it is observed that")]

/-- One alternative of `^(kw|…)[, ]+` (IGNORECASE): keyword prefix followed by
at least one comma/space; returns remainder of the original string. -/
def tryKwComma (kw : Str) (s : Str) : Option Str :=
  if sw (lowerS s) kw then
    if ((s.drop kw.length).takeWhile (fun c => c = ',' || c = ' ')).isEmpty then none
    else some ((s.drop kw.length).dropWhile (fun c => c = ',' || c = ' '))
  else none

def stripKwP : List Str → Str → Str
  | [], s => s
  | kw :: rest, s =>
    match tryKwComma kw s with
    | some r => r
    | none => stripKwP rest s

/-- `re.match(r'^kw\b', ·)`. -/
def swWordB (low kw : Str) : Bool :=
  sw low kw &&
    (match low.drop kw.length with
     | [] => true
     | c :: _ => !isWordC c)

/-- `\d{4}\)` at the head. -/
def d4close : Str → Bool
  | a :: b :: c :: d :: ')' :: _ => isDig a && isDig b && isDig c && isDig d
  | _ => false

/-- `re.match(r'^\)?\d{4}\)', ·)`. -/
def cite4 : Str → Bool
  | ')' :: r => d4close r
  | r => d4close r

/-- `re.match(r'^\d+\s+(illustrates|shows|presents)', ·)`. -/
def numVerb (low : Str) : Bool :=
  if (low.takeWhile (fun c => isDig c)).isEmpty then false
  else
    let r := low.dropWhile (fun c => isDig c)
    if (r.takeWhile (fun c => isWs c)).isEmpty then false
    else
      let r2 := r.dropWhile (fun c => isWs c)
      sw r2 (s2l ("illustrates")) || sw r2 (s2l ("shows")) || sw r2 (s2l ("presents"))

/-- `re.search` of `\b(kw|…)` followed by a per-use continuation, scanning
every position with a word boundary before it. -/
def searchBounded (kws : List Str) (after : Str → Bool) : Option Char → Str → Bool
  | _, [] => false
  | prev, c :: cs =>
    ((match prev with
      | none => true
      | some p => !isWordC p) &&
      kws.any (fun kw => sw (c :: cs) kw && after ((c :: cs).drop kw.length)))
    || searchBounded kws after (some c) cs

def comps : List Str :=
  [s2l ("by over"), s2l ("achieves"), s2l ("improves"), s2l ("outperforms")]

/-- `\b` after the keyword, then `\s*(,|\.|$)`. -/
def compAfter (r : Str) : Bool :=
  match r with
  | [] => true
  | c :: _ =>
    if c = ',' || c = '.' then true
    else if (r.takeWhile (fun x => isWs x)).isEmpty then false
    else
      match r.dropWhile (fun x => isWs x) with
      | [] => true
      | c2 :: _ => c2 = ',' || c2 = '.'

def preps : List Str :=
  [s2l ("by"), s2l ("over"), s2l ("of"), s2l ("with"), s2l ("to"),
   s2l ("for"), s2l ("in"), s2l ("on")]

/-- `\s*\.$` after the keyword. -/
def prepAfter (r : Str) : Bool := r.dropWhile (fun x => isWs x) = ['.']

def navFirst : List Str :=
  [s2l ("see"), s2l ("refer to"), s2l ("shown in"), s2l ("details in"),
   s2l ("as seen in")]

def navSecond : List Str :=
  [s2l ("table"), s2l ("figure"), s2l ("fig."), s2l ("section")]

/-- `re.search(r"^\s*(see|refer to|shown in|details in|as seen in)\s+(table|figure|fig\.|section)\s+\d+", ·)`. -/
def navTail (r3 : Str) : Bool :=
  navSecond.any (fun b =>
    sw r3 b &&
      !((r3.drop b.length).takeWhile (fun c => isWs c)).isEmpty &&
      !(((r3.drop b.length).dropWhile (fun c => isWs c)).takeWhile
          (fun c => isDig c)).isEmpty)

/-- `re.search(r"^\s*(see|refer to|shown in|details in|as seen in)\s+(table|figure|fig\.|section)\s+\d+", ·)`. -/
def navMatch (low : Str) : Bool :=
  let r := lstrip low
  navFirst.any (fun a =>
    sw r a &&
      !((r.drop a.length).takeWhile (fun c => isWs c)).isEmpty &&
      navTail ((r.drop a.length).dropWhile (fun c => isWs c)))

def capAlts : List Str := [s2l ("table"), s2l ("figure"), s2l ("fig.")]

def capTail (r : Str) : Bool :=
  match r with
  | '.' :: r2 => r2.all (fun c => isWs c)
  | _ => r.all (fun c => isWs c)

/-- `re.match(r"^(table|figure|fig\.)\s+\d+\.?\s*$", ·)`. -/
def capMatch (low : Str) : Bool :=
  capAlts.any (fun a =>
    sw low a &&
      (let r := low.drop a.length
       !(r.takeWhile (fun c => isWs c)).isEmpty &&
         (let r2 := r.dropWhile (fun c => isWs c)
          !(r2.takeWhile (fun c => isDig c)).isEmpty &&
            capTail (r2.dropWhile (fun c => isDig c)))))

def noise1 : List Str :=
  [s2l ("et al."), s2l ("arxiv"), s2l ("github"), s2l ("codebase"),
   s2l ("implemented by"), s2l ("designed by")]

def noise2 : List Str :=
  [s2l ("et al."), s2l ("arxiv"), s2l ("acknowledgement"), s2l ("references"),
   s2l ("conference"), s2l ("proceedings"), s2l ("nips"), s2l ("neurips")]

/-- `\([^)]*\)` and `\[[^\]]*\]` removal with empty replacement. -/
def findClose (close : Char) (r : Str) : Option Str :=
  match r.dropWhile (fun c => !(c = close)) with
  | [] => none
  | _ :: rest => some rest

def remDelimGo (openC closeC : Char) : Nat → Str → Str
  | 0, l => l
  | _ + 1, [] => []
  | f + 1, c :: cs =>
    if c = openC then
      match findClose closeC cs with
      | some rest => remDelimGo openC closeC f rest
      | none => c :: remDelimGo openC closeC f cs
    else c :: remDelimGo openC closeC f cs

def remParens (l : Str) : Str := remDelimGo '(' ')' l.length l

def remBrackets (l : Str) : Str := remDelimGo '[' ']' l.length l

def ensureDot (s : Str) : Str := if ew s (s2l (".")) then s else s ++ [ '.' ]

/-- Lines 198–217 of src/paper2ppt_cli.py: citation-bracket removal,
whitespace normalization, the word-count gate, capitalization, and the
terminal period. -/
def rewriteCore (s : Str) : Str :=
  let s9 := pyStrip (collapseWs (remBrackets (remParens s)))
  if Nat.blt (wc s9) MIN_BULLET_WORDS || Nat.blt MAX_BULLET_WORDS (wc s9) then []
  else ensureDot (upperFirst s9)

/-- `rewrite_bullet` from src/paper2ppt_cli.py. -/
def rewriteBullet (sentence : Str) : Str :=
  let s1 := hyphenFix sentence
  let s2 := collapseWs (pyStrip s1)
  let s3 := stripKwP connectives1 s2
  let s4 := stripKwP connectives2 s3
  let s := upperFirst s4
  let low := lowerS s
  if swWordB low (s2l ("and")) || swWordB low (s2l ("but")) ||
      swWordB low (s2l ("or")) then []
  else if cite4 s || sw s (s2l (")")) then []
  else if containsSub s (s2l ("…")) || containsSub s (s2l ("...")) then []
  else if numVerb low then []
  else if searchBounded comps compAfter none low then []
  else if searchBounded preps prepAfter none low then []
  else if navMatch low then []
  else if capMatch low then []
  else if noise1.any (fun x => containsSub low x) then []
  else if s.isEmpty then []
  else
    let s6 := collapseWs (pyStrip s)
    let low2 := lowerS s6
    if noise2.any (fun x => containsSub low2 x) then []
    else rewriteCore s6

/-!  ## src/paper2ppt_cli.py — bullet filter stages  -/

/-- `text = b.strip(); if text.startswith("* "): text = text[2:].strip()` -/
def stripStarStrip (b : Str) : Str :=
  let t := pyStrip b
  if sw t (s2l ("* ")) then pyStrip (t.drop 2) else t

/-- `\b` on both sides of the keyword. -/
def wordBAfter (r : Str) : Bool :=
  match r with
  | [] => true
  | c :: _ => !isWordC c

def signalVerbs : List Str :=
  [s2l ("is"), s2l ("are"), s2l ("was"), s2l ("were"), s2l ("uses"),
   s2l ("achieves"), s2l ("shows"), s2l ("demonstrates"), s2l ("improves"),
   s2l ("reduces"), s2l ("introduces"), s2l ("presents"), s2l ("stacks"),
   s2l ("computes"), s2l ("trains"), s2l ("learns"), s2l ("optimizes"),
   s2l ("functions"), s2l ("generates"), s2l ("outputs"), s2l ("inputs"),
   s2l ("consists"), s2l ("comprises"), s2l ("employs"), s2l ("utilizes"),
   s2l ("applies"), s2l ("contains"), s2l ("includes")]

def signalNouns : List Str :=
  [s2l ("model"), s2l ("approach"), s2l ("method"), s2l ("architecture"),
   s2l ("framework"), s2l ("system"), s2l ("mechanism"), s2l ("network"),
   s2l ("layer"), s2l ("attention"), s2l ("encoder"), s2l ("decoder"),
   s2l ("data"), s2l ("training"), s2l ("loss"), s2l ("transformer"),
   s2l ("embedding"), s2l ("projection"), s2l ("softmax"), s2l ("normalization")]

def hasSignal (low : Str) : Bool :=
  searchBounded signalVerbs wordBAfter none low ||
    searchBounded signalNouns wordBAfter none low

/-- `re.sub(r"\W+", "", low)`. -/
def normKey (low : Str) : Str := low.filter (fun c => isWordC c)

/-- `final_bullets` from src/paper2ppt_cli.py (with the `seen` set threaded). -/
def finalBulletsGo : List Str → List Str → List Str
  | [], _ => []
  | b :: rest, seen =>
    if b.isEmpty then finalBulletsGo rest seen
    else
      let text := stripStarStrip b
      if Nat.blt (wc text) MIN_BULLET_WORDS then finalBulletsGo rest seen
      else if Nat.blt MAX_BULLET_WORDS (wc text) then finalBulletsGo rest seen
      else
        let low := lowerS text
        if !hasSignal low then finalBulletsGo rest seen
        else
          let key := normKey low
          if seen.contains key then finalBulletsGo rest seen
          else
            (s2l ("* ") ++ upperFirst (ensureDot (rstripSet (s2l (",;:")) text))) ::
              finalBulletsGo rest (key :: seen)

def finalBullets (candidates : List Str) : List Str := finalBulletsGo candidates []

def addOneVerbs : List Str :=
  [s2l ("is"), s2l ("are"), s2l ("was"), s2l ("were"), s2l ("uses"),
   s2l ("shows"), s2l ("demonstrates"), s2l ("achieves"), s2l ("improves"),
   s2l ("reduces"), s2l ("introduces"), s2l ("presents"), s2l ("stacks"),
   s2l ("computes"), s2l ("trains"), s2l ("learns"), s2l ("utilizes"),
   s2l ("employs"), s2l ("generates")]

def addOneDangles : List Str :=
  [s2l ("and"), s2l ("or"), s2l ("with"), s2l ("that"), s2l ("which"),
   s2l ("to"), s2l ("by")]

/-- `\.$` directly after the keyword (`\b(and|or|…)\.$`). -/
def dangAfter (r : Str) : Bool := r = ['.']

/-- The scan inside `add_one_more_safe_bullet`. -/
def addOneScan (usedText : List Str) : List Str → Option Str
  | [] => none
  | s0 :: rest =>
    let s := pyStrip s0
    if !ew s (s2l (".")) then addOneScan usedText rest
    else if Nat.blt (wc s) MIN_BULLET_WORDS || Nat.blt 45 (wc s) then
      addOneScan usedText rest
    else
      let low := lowerS s
      if searchBounded addOneDangles dangAfter none low then addOneScan usedText rest
      else if !searchBounded addOneVerbs wordBAfter none low then addOneScan usedText rest
      else if usedText.contains low then addOneScan usedText rest
      else
        let rb := rewriteBullet s
        if rb.isEmpty then addOneScan usedText rest
        else some rb

/-- `add_one_more_safe_bullet` from src/paper2ppt_cli.py. -/
def addOneMoreSafeBullet (existing : List Str) (sentences : List Str)
    (target : Nat) : List Str :=
  if Nat.ble target existing.length then existing
  else
    match addOneScan (existing.map lowerS) sentences with
    | some rb => existing ++ [s2l ("* ") ++ rb]
    | none => existing

def badEndings : List Str :=
  [s2l ("and"), s2l ("or"), s2l ("with"), s2l ("by"), s2l ("to"),
   s2l ("that"), s2l ("which"), s2l ("including"), s2l ("based on")]

/-- The firing condition of the dangling-ending fix of `light_polish_bullet`:
`low.endswith(" " + end) or low.endswith(" " + end + ".")`. -/
def fireCond (low e : Str) : Bool :=
  ew low (' ' :: e) || ew low (' ' :: (e ++ [ '.' ]))

/-- The `for end in _BAD_ENDINGS` loop of `light_polish_bullet`: `low` is the
lowercase of the original text and is not updated inside the loop. -/
def lpLoop (low : Str) : List Str → Str → Str
  | [], b => b
  | e :: rest, b =>
    lpLoop low rest
      (if ew low (' ' :: e) || ew low (' ' :: (e ++ [ '.' ])) then
        rstripSet [ '.' ] b ++ s2l (" in practice.")
      else b)

/-- `light_polish_bullet` from src/paper2ppt_cli.py. -/
def lightPolishBullet (bullet : Str) : Str :=
  let b0 := pyStrip bullet
  let b1 := if sw b0 (s2l ("* ")) then pyStrip (b0.drop 2) else b0
  let low := lowerS b1
  let b2 := lpLoop low badEndings b1
  let b3 := rstripSet (s2l (",;:")) b2
  let b4 := upperFirst b3
  s2l ("* ") ++ ensureDot b4

/-- `polish_bullets` from src/paper2ppt_cli.py. -/
def polishBullets (bullets : List Str) : List Str :=
  (bullets.filter
    (fun b => !(containsSub b (s2l ("…")) || containsSub b (s2l ("..."))))).map
    (fun b =>
      let text := if sw b (s2l ("* ")) then b.drop 2 else b
      s2l ("* ") ++ ensureDot (rstripSet (s2l (",;:")) text))

def priorityKeys : List (Str × Nat) :=
  [(s2l ("problem"), 0), (s2l ("challenge"), 0), (s2l ("approach"), 1),
   (s2l ("method"), 1), (s2l ("model"), 1), (s2l ("result"), 2),
   (s2l ("performance"), 2), (s2l ("conclusion"), 3)]

def scoreGo : List (Str × Nat) → Str → Nat
  | [], _ => 1
  | (k, v) :: rest, tl => if containsSub tl k then v else scoreGo rest tl

def ebScore (t : Str) : Nat := scoreGo priorityKeys (lowerS t)

/-- Stable ascending insertion (Python `list.sort(key=score)` is stable, and
any stable ascending sort computes the same list). -/
def sInsert (x : Str) : List Str → List Str
  | [] => [x]
  | y :: ys => if Nat.ble (ebScore x) (ebScore y) then x :: y :: ys else y :: sInsert x ys

def stableSortScore : List Str → List Str
  | [] => []
  | x :: xs => sInsert x (stableSortScore xs)

/-- `enhance_bullet_flow` from src/paper2ppt_cli.py. -/
def enhanceBulletFlow (bullets : List Str) : List Str :=
  (stableSortScore
      (bullets.map (fun b => if sw b (s2l ("* ")) then b.drop 2 else b))).map
    (fun b => s2l ("* ") ++ b)

/-- The `while` loop of `chunk_bullets`, holding the window emitted on the
previous iteration so that a trailing window shorter than
`MIN_BULLETS_PER_SLIDE = 3` can be merged into it; windows of
`MAX_BULLETS_PER_SLIDE = 6` are spelled out structurally. -/
def chunkRest (prev : List Str) : List Str → List (List Str)
  | [] => [prev]
  | [a] => [prev ++ [a]]
  | [a, b] => [prev ++ [a, b]]
  | a :: b :: c :: d :: e :: f :: g :: rest =>
    prev :: chunkRest [a, b, c, d, e, f] (g :: rest)
  | l => [prev, l]

/-- `chunk_bullets` from src/paper2ppt_cli.py (the first window is always
appended, even when shorter than `MIN_BULLETS_PER_SLIDE`). -/
def chunkBullets : List Str → List (List Str)
  | [] => []
  | l => chunkRest (l.take MAX_BULLETS_PER_SLIDE) (l.drop MAX_BULLETS_PER_SLIDE)

/-!  ## src/paper2ppt_cli.py — images and deduplication  -/

/-- `should_use_images` from src/paper2ppt_cli.py. -/
def shouldUseImages (secName : Str) : Bool :=
  secName = s2l ("Method") || secName = s2l ("Results") || secName = s2l ("Experiments")

def basename (p : Str) : Str := (p.reverse.takeWhile (fun c => !(c = '/'))).reverse

/-- `re.search(r'page_(\d+)', basename)`: leftmost occurrence of `page_`
followed by at least one digit. -/
def pnGo : Str → Option Nat
  | [] => none
  | c :: cs =>
    if sw (c :: cs) (s2l ("page_")) &&
        !(((c :: cs).drop 5).takeWhile (fun x => isDig x)).isEmpty then
      some (natOfDigits (((c :: cs).drop 5).takeWhile (fun x => isDig x)))
    else pnGo cs

/-- `page_number_from_path` from src/paper2ppt_cli.py. -/
def pageNumberFromPath (p : Str) : Nat := (pnGo (basename p)).getD 0

def pInsert (x : Str) : List Str → List Str
  | [] => [x]
  | y :: ys =>
    if Nat.ble (pageNumberFromPath x) (pageNumberFromPath y) then x :: y :: ys
    else y :: pInsert x ys

def pageSort : List Str → List Str
  | [] => []
  | x :: xs => pInsert x (pageSort xs)

/-- Python `l[-n:]` (for `n = 0` this is the whole list). -/
def lastN (l : List Str) (n : Nat) : List Str :=
  if n = 0 then l else l.drop (l.length - n)

/-- `select_best_images` from src/paper2ppt_cli.py. -/
def selectBestImages (images : List Str) (secName : Str) (used : List Str)
    (maxImages : Nat) : List Str :=
  let candidates := images.filter (fun p => !used.contains p)
  if candidates.isEmpty then []
  else
    let cs := pageSort candidates
    if secName = s2l ("Method") then cs.take maxImages else lastN cs maxImages

/-- `generate_image_caption` from src/paper2ppt_cli.py. -/
def generateImageCaption (secName : Str) : Str :=
  if secName = s2l ("Method") then s2l ("Model architecture overview.")
  else if secName = s2l ("Results") || secName = s2l ("Experiments") then
    s2l ("Experimental results and performance comparison.")
  else []

/-- Token set of `deduplicate_bullets.normalize`: lowercase, keep only
`[a-z]` and whitespace, split, keep tokens longer than 3, as a set. -/
def tokSet (b : Str) : List Str :=
  (((lowerS b).filter (fun c => isLowerA c || isWs c)) |> splitWs
    |>.filter (fun t => Nat.blt 3 t.length)).eraseDups

/-- `len(tb & prev) / max(len(tb), len(prev)) >= 0.7`, compared exactly by
cross-multiplication (`10·|∩| ≥ 7·max`); for the token-set sizes that occur
the float comparison in the source agrees with the exact rational one. -/
def overlapGe (tb prev : List Str) : Bool :=
  Nat.ble (7 * max tb.length prev.length)
    (10 * (tb.filter (fun t => prev.contains t)).length)

def dedupGo : List Str → List (List Str) → List Str
  | [], _ => []
  | b :: rest, seen =>
    let tb := tokSet b
    if seen.any (fun prev => !tb.isEmpty && !prev.isEmpty && overlapGe tb prev) then
      dedupGo rest seen
    else b :: dedupGo rest (seen ++ [tb])

/-- `deduplicate_bullets` from src/paper2ppt_cli.py (threshold 0.7). -/
def deduplicateBullets (bullets : List Str) : List Str := dedupGo bullets []

def lowSignalHit (low : Str) : Bool :=
  containsSub low (s2l ("hyperparameters")) ||
  containsSub low (s2l ("training steps")) ||
  containsSub low (s2l ("batch size")) ||
  containsSub low (s2l ("learning rate")) ||
  containsSub low (s2l ("byte-pair encoding")) ||
  containsSub low (s2l ("byte pair encoding")) ||
  containsSub low (s2l ("wordpiece")) ||
  containsSub low (s2l ("unlisted values"))

/-- `remove_low_signal_bullets` from src/paper2ppt_cli.py. -/
def removeLowSignalBullets (bullets : List Str) : List Str :=
  bullets.filter (fun b => !lowSignalHit (lowerS b))

/-- `limit_section_bullets` from src/paper2ppt_cli.py. -/
def limitSectionBullets (secName : Str) (bullets : List Str) : List Str :=
  match targetLookup secName with
  | some t => bullets.take t
  | none => bullets

/-!  ## src/paper2ppt_cli.py — `generate_slides` (plan construction)  -/

structure PImg where
  path : Str
  caption : Str
deriving DecidableEq, Repr

structure SlideEntry where
  title : Str
  bullets : List Str
  images : List PImg
deriving DecidableEq, Repr

/-- `[img["path"] for imgs in pages_images.values() for img in imgs if "path" in img]`
(dict values in insertion order; in the model every image carries a path). -/
def allPaths (pagesImages : List (Nat × List PImg)) : List Str :=
  (pagesImages.map (fun pr => pr.2.map (fun i => i.path))).flatten

/-- Bullet stages of the rule-based fallback, lines 695–714 (through the
second `light_polish_bullet` pass that precedes the `if not bullets` check). -/
def sectionBulletsPre (secName : Str) (sentences : List Str) (target : Nat) :
    List Str :=
  let rewritten := sentences.map rewriteBullet
  let b1 := finalBullets rewritten
  let b2 := addOneMoreSafeBullet b1 sentences target
  let b3 := b2.map lightPolishBullet
  let b4 := enhanceBulletFlow b3
  let b5 := polishBullets b4
  let b6 := deduplicateBullets b5
  let b7 := removeLowSignalBullets b6
  let b8 := limitSectionBullets secName b7
  b8.map lightPolishBullet

/-- Bullet stages after the `if not bullets` check, lines 720–726. -/
def sectionBulletsPost (secName : Str) (b9 : List Str) : List Str :=
  let b10 := enhanceBulletFlow b9
  let b11 := polishBullets b10
  let b12 := deduplicateBullets b11
  let b13 := removeLowSignalBullets b12
  limitSectionBullets secName b13

/-- One iteration of the section loop of `generate_slides` (LLM disabled, so
`summarize_section_with_qwen` returns `[]` and the rule-based fallback always
runs).  Returns the slide-plan entries of the section and the images selected
for it (which the caller adds to `used_images`). -/
def sectionStep (pagesImages : List (Nat × List PImg)) (used : List Str)
    (sec : PSec) : List SlideEntry × List Str :=
  let rawt := if sec.raw_title.isEmpty then sec.title else sec.raw_title
  let secName := normalizeSection rawt
  if SKIP_SECTIONS.contains (lowerS secName) then ([], [])
  else
    let text := (normalizePdfText sec.text).take MAX_MODEL_CHARS
    let sentences := extractSentences text
    let target := (targetLookup secName).getD 15
    let b9 := sectionBulletsPre secName sentences target
    if b9.isEmpty then ([], [])
    else
      let bullets := sectionBulletsPost secName b9
      let chunks := chunkBullets bullets
      let selected :=
        if shouldUseImages secName then
          selectBestImages (allPaths pagesImages) secName used MAX_FIGURES_PER_SLIDE
        else []
      let images := selected.map (fun p => PImg.mk p (generateImageCaption secName))
      let entries := chunks.enum.map (fun pr =>
        SlideEntry.mk
          (if pr.1 = 0 then secName else secName ++ s2l (" (continued)"))
          pr.2
          (if pr.1 = 0 then images else []))
      (entries, selected)

/-- The section loop of `generate_slides`, threading `used_images` and
collecting per-section image selections alongside the slide plan. -/
def genFold (pagesImages : List (Nat × List PImg)) :
    List PSec → List Str → List SlideEntry × List (PSec × List Str)
  | [], _ => ([], [])
  | s :: rest, used =>
    let r := sectionStep pagesImages used s
    let r2 := genFold pagesImages rest (used ++ r.2)
    (r.1 ++ r2.1, (s, r.2) :: r2.2)

/-- The slide plan built by `generate_slides` (LLM disabled) from the page
texts and page images supplied by the Page Ingestor. -/
def genSlidesPlan (pagesText : List Str) (pagesImages : List (Nat × List PImg)) :
    List SlideEntry :=
  (genFold pagesImages (splitIntoSections pagesText) []).1

/-- The per-section image selections of the same run. -/
def sectionSelections (pagesText : List Str)
    (pagesImages : List (Nat × List PImg)) : List (PSec × List Str) :=
  (genFold pagesImages (splitIntoSections pagesText) []).2

/-- Bullet shape invariant threaded through the polishing stages: the bullet
is `"* "` plus a text with a non-whitespace head character, a terminal
period, and a word count in `[lo, hi]`; when `nd = true` the text
additionally matches none of the dangling-ending patterns of
`light_polish_bullet`. -/
def BulletForm (lo hi : Nat) (nd : Bool) (b : Str) : Prop :=
  ∃ t, b = s2l ("* ") ++ t ∧
    (∃ c ts, t = c :: ts ∧ isWs c = false) ∧
    (∃ u, t = u ++ [ '.' ]) ∧
    lo ≤ wc t ∧ wc t ≤ hi ∧
    (nd = true → ∀ e ∈ badEndings, fireCond (lowerS t) e = false)

/-- Shape of a bullet text: non-whitespace head character, terminal period,
word count in `[lo, hi]`. -/
def TextForm (lo hi : Nat) (t : Str) : Prop :=
  (∃ c ts, t = c :: ts ∧ isWs c = false) ∧ (∃ u, t = u ++ [ '.' ]) ∧
    lo ≤ wc t ∧ wc t ≤ hi

/-!  ## Concrete inputs used by the claims  -/

def c3first : Str := s2l ("The model uses self-attention layers.")

def c3second : Str := s2l ("The model uses self attention layers.")

def c9sentence : Str := s2l ("By over 10%, we improve performance, ")

def scenarioA : Str :=
  s2l ("1 Introduction\nWe propose a new method. Our approach achieves higher accuracy. 2 Method\nThe model uses an encoder.")

def c1page : Str := s2l ("hello world this is plain prose")

/-- A page whose single body sentence has 59 words and ends in `" and."`:
the dangling-ending fix of `light_polish_bullet` appends `" in practice."`,
yielding a 61-word bullet text. -/
def c2pages : List Str :=
  [s2l ("1 Introduction\nThe model is strong because many parts work well together across tasks one two three four five six seven eight nine ten eleven twelve thirteen fourteen fifteen sixteen seventeen eighteen nineteen twenty twentyone twentytwo twentythree twentyfour twentyfive twentysix twentyseven twentyeight twentynine thirty thirtyone thirtytwo thirtythree thirtyfour thirtyfive thirtysix thirtyseven thirtyeight thirtynine forty fortyone fortytwo fortythree fortyfour fortyfive fortysix and.")]

/-!  ## C3 — near-duplicate removal on Scenario C  -/

/-- C3 counterexample: on the candidate pair of Scenario C the near-dedup
stage does not keep only the first element. -/
theorem c3_counterexample : deduplicateBullets [c3first, c3second] ≠ [c3first] := by
  decide

/-- C3 (amended): on `["The model uses self-attention layers.", "The model
uses self attention layers."]` the near-dedup stage keeps both elements: the
normalized token sets have 4 and 5 members with 3 in common, so the overlap
ratio is 3/5 = 0.6 < 0.7 ("self-attention" normalizes to the single token
"selfattention", which does not match "self" or "attention"). -/
theorem c3_near_dedup_keeps_both :
    deduplicateBullets [c3first, c3second] = [c3first, c3second] ∧
    (tokSet c3first).length = 4 ∧ (tokSet c3second).length = 5 ∧
    ((tokSet c3second).filter (fun t => (tokSet c3first).contains t)).length = 3 ∧
    overlapGe (tokSet c3second) (tokSet c3first) = false := by
  decide

/-!  ## C9 — Rewrite stage on Scenario B  -/

/-- C9 counterexample: the Rewrite stage does not reject (return the empty
string for) the candidate sentence of Scenario B. -/
theorem c9_counterexample : rewriteBullet c9sentence ≠ [] := by
  decide

/-- C9 (amended): the Rewrite stage accepts `"By over 10%, we improve
performance, "`, returning `"By over 10%, we improve performance,."`: the
dangling-comparative pattern requires `by over`/`achieves`/`improves`/
`outperforms` to be followed (after optional whitespace) by a comma, period,
or end of string, and here `by over` is followed by `10%`, while `improve`
lacks the final `s` the pattern demands. -/
theorem c9_rewrite_accepts :
    rewriteBullet c9sentence = s2l ("By over 10%, we improve performance,.") := by
  decide

/-!  ## C7 — Section Segmenter on Scenario A  -/

/-- C7 counterexample: on the Scenario A input the Section Segmenter does not
return two sections; it returns one. -/
theorem c7_counterexample : (splitIntoSections [scenarioA]).length ≠ 2 := by
  decide

/-- C7 (amended): on the Scenario A input the Section Segmenter returns
exactly one section, titled `introduction`, with page set `{0}`, whose text
contains the whole remainder including the inline `2 Method`: the heading
detector works per line, and `2 Method` does not begin a line of the input
(the newline precedes `The model uses an encoder.`). -/
theorem c7_single_section :
    splitIntoSections [scenarioA] =
      [⟨s2l ("introduction"), s2l ("1 Introduction"),
        s2l ("We propose a new method. Our approach achieves higher accuracy. 2 Method The model uses an encoder."),
        [0], 0⟩] := by
  decide

/-!  ## C1 — behaviour with zero detected headings  -/

theorem lineLoop_no_heading (i : Nat) :
    ∀ (lines : List Str) (acc : List PSec),
      (∀ ln ∈ lines, isHeadingLine ln = false) →
      lineLoop i lines none acc = (none, acc) := by
  intro lines
  induction lines with
  | nil => intro acc _; rfl
  | cons ln rest ih =>
    intro acc h
    have hln : isHeadingLine ln = false := h ln (List.mem_cons_self ln rest)
    have hrest : ∀ l ∈ rest, isHeadingLine l = false :=
      fun l hl => h l (List.mem_cons_of_mem ln hl)
    simp only [lineLoop, hln, Bool.false_eq_true, if_false]
    exact ih acc hrest

theorem pagesLoop_no_heading :
    ∀ (pages : List Str) (i : Nat) (acc : List PSec),
      (∀ p ∈ pages, ∀ ln ∈ pageLines p, isHeadingLine ln = false) →
      pagesLoop i pages none acc = (none, acc) := by
  intro pages
  induction pages with
  | nil => intro i acc _; rfl
  | cons p rest ih =>
    intro i acc h
    have hp : ∀ ln ∈ pageLines p, isHeadingLine ln = false :=
      h p (List.mem_cons_self p rest)
    have hrest : ∀ q ∈ rest, ∀ ln ∈ pageLines q, isHeadingLine ln = false :=
      fun q hq => h q (List.mem_cons_of_mem p hq)
    simp only [pagesLoop, lineLoop_no_heading i (pageLines p) acc hp]
    exact ih (i + 1) acc hrest

/-- C1 (amended): `split_into_sections` never raises (it is a total
function), and on every `pages_text` input in which no line is classified as
a heading by `is_heading_line` it yields the empty section list: the core
implementation skips all prose that precedes the first detected heading
("skip junk before first real section") instead of opening a fallback
section. -/
theorem c1_no_heading_yields_no_sections :
    ∀ pagesText : List Str,
      (∀ p ∈ pagesText, ∀ ln ∈ pageLines p, isHeadingLine ln = false) →
      splitIntoSections pagesText = [] := by
  intro pagesText h
  unfold splitIntoSections
  rw [pagesLoop_no_heading pagesText 0 [] h]
  rfl

/-- C1 counterexample: a one-page document of plain prose has no
heading-classified lines, yet `split_into_sections` yields zero sections, not
a single fallback section holding the prose. -/
theorem c1_counterexample :
    ((pageLines c1page).all (fun ln => !isHeadingLine ln) = true) ∧
    splitIntoSections [c1page] = [] ∧ (splitIntoSections [c1page]).length ≠ 1 := by
  decide

/-- C1 witness: the amended theorem applied to the concrete one-page input. -/
theorem c1_witness : splitIntoSections [c1page] = [] :=
  c1_no_heading_yields_no_sections [c1page] (by decide)

/-!  ## C10 / C6 — chunking  -/

theorem chunkRest_flatten :
    ∀ (prev rest : List Str), (chunkRest prev rest).flatten = prev ++ rest := by
  intro prev rest
  induction prev, rest using chunkRest.induct with
  | case1 prev => simp [chunkRest]
  | case2 prev a => simp [chunkRest]
  | case3 prev a b => simp [chunkRest]
  | case4 prev a b c d e f g rest ih =>
    simp only [chunkRest, List.flatten_cons, ih]
    simp
  | case5 prev l h1 h2 h3 h4 => simp [chunkRest, h1, h2, h3, h4]

/-- C10: concatenating the chunks returned by `chunk_bullets`, in order,
yields exactly the input list: no bullet is dropped, duplicated, or reordered
by chunking, so each bullet belongs to exactly one slide-plan entry of its
section. -/
theorem c10_chunk_concat_identity :
    ∀ bullets : List Str, (chunkBullets bullets).flatten = bullets := by
  intro bullets
  cases bullets with
  | nil => rfl
  | cons b rest =>
    show (chunkRest ((b :: rest).take MAX_BULLETS_PER_SLIDE)
      ((b :: rest).drop MAX_BULLETS_PER_SLIDE)).flatten = b :: rest
    rw [chunkRest_flatten]
    exact List.take_append_drop _ _

theorem chunkRest_len :
    ∀ (prev rest : List Str), prev.length ≤ 6 →
      ∀ c ∈ chunkRest prev rest, c.length ≤ 8 := by
  intro prev rest
  induction prev, rest using chunkRest.induct with
  | case1 prev =>
    intro hp c hc
    simp only [chunkRest, List.mem_singleton] at hc
    subst hc
    omega
  | case2 prev a =>
    intro hp c hc
    simp only [chunkRest, List.mem_singleton] at hc
    subst hc
    simp only [List.length_append, List.length_singleton]
    omega
  | case3 prev a b =>
    intro hp c hc
    simp only [chunkRest, List.mem_singleton] at hc
    subst hc
    simp only [List.length_append, List.length_cons, List.length_singleton,
      List.length_nil]
    omega
  | case4 prev a b c d e f g rest ih =>
    intro hp x hx
    simp only [chunkRest, List.mem_cons] at hx
    rcases hx with hx | hx
    · subst hx
      omega
    · exact ih (by simp) x hx
  | case5 prev l h1 h2 h3 h4 =>
    intro hp x hx
    have hl : l.length ≤ 6 := by
      rcases l with _ | ⟨a, _ | ⟨b, _ | ⟨c, _ | ⟨d, _ | ⟨e, _ | ⟨f, _ | ⟨g, r⟩⟩⟩⟩⟩⟩⟩
      · exact absurd rfl h1
      · exact absurd rfl (h2 a)
      · exact absurd rfl (h3 a b)
      · simp
      · simp
      · simp
      · simp
      · exact absurd rfl (h4 a b c d e f g r)
    simp only [chunkRest, List.mem_cons, List.mem_singleton,
      List.not_mem_nil, or_false] at hx
    rcases hx with hx | hx
    · subst hx
      omega
    · subst hx
      omega

/-- C6 (amended): every entry produced by `chunk_bullets` contains at most
`MAX_BULLETS_PER_SLIDE + MIN_BULLETS_PER_SLIDE - 1 = 8` bullets (not 6): a
trailing window of fewer than `MIN_BULLETS_PER_SLIDE = 3` bullets is merged
into the previous window of up to 6.  Windowing otherwise uses fixed-size
windows in original order, and `generate_slides` appends every chunk to the
slide plan unchanged. -/
theorem c6_chunk_length_bound :
    ∀ bullets : List Str, ∀ c ∈ chunkBullets bullets,
      c.length ≤ MAX_BULLETS_PER_SLIDE + MIN_BULLETS_PER_SLIDE - 1 := by
  intro bullets c hc
  cases bullets with
  | nil => simp [chunkBullets] at hc
  | cons b rest =>
    have : c ∈ chunkRest ((b :: rest).take MAX_BULLETS_PER_SLIDE)
        ((b :: rest).drop MAX_BULLETS_PER_SLIDE) := hc
    exact chunkRest_len _ _ (List.length_take_le _ _) c this

def c6pages : List Str :=
  [s2l ("1 Method\nThe model uses an encoder stack for sequence processing tasks. The method applies dropout during optimization across deep layered networks. The system performs translation between several languages quite reliably overall. The approach computes attention weights over hidden representation vectors efficiently. The architecture contains residual connections linking consecutive computation blocks together. The framework trains quickly because parallel hardware handles matrix multiplication. The network generates output tokens sequentially while decoding long sentences.")]

/-- C6 counterexample: a Method section whose pipeline yields seven bullets
produces a slide-plan entry with seven bullets (the trailing one-bullet
window is merged into the previous six-bullet window), exceeding
`MAX_BULLETS_PER_SLIDE = 6`. -/
theorem c6_counterexample :
    ¬ (∀ e ∈ genSlidesPlan c6pages [], e.bullets.length ≤ MAX_BULLETS_PER_SLIDE) := by
  decide

/-- C6 witness: the amended bound applied to a concrete seven-bullet list,
whose single chunk has seven ≤ 8 bullets. -/
theorem c6_witness :
    [s2l ("a"), s2l ("b"), s2l ("c"), s2l ("d"), s2l ("e"), s2l ("f"), s2l ("g")].length ≤
      MAX_BULLETS_PER_SLIDE + MIN_BULLETS_PER_SLIDE - 1 :=
  c6_chunk_length_bound
    [s2l ("a"), s2l ("b"), s2l ("c"), s2l ("d"), s2l ("e"), s2l ("f"), s2l ("g")]
    [s2l ("a"), s2l ("b"), s2l ("c"), s2l ("d"), s2l ("e"), s2l ("f"), s2l ("g")]
    (by decide)

/-!  ## C8 — heading length bounds  -/

theorem numGroupsGo_len : ∀ (f : Nat) (r : Str), (numGroupsGo f r).length ≤ r.length := by
  intro f
  induction f with
  | zero => intro r; exact Nat.le_refl _
  | succ f ih =>
    intro r
    cases r with
    | nil => simp [numGroupsGo]
    | cons c cs =>
      by_cases hc : c = '.'
      · subst hc
        simp only [numGroupsGo]
        split
        · exact Nat.le_refl _
        · calc (numGroupsGo f (cs.dropWhile (fun c => isDig c))).length
              ≤ (cs.dropWhile (fun c => isDig c)).length := ih _
            _ ≤ cs.length := len_dropWhile_le _ _
            _ ≤ ('.' :: cs).length := by simp
      · have : numGroupsGo (f + 1) (c :: cs) = c :: cs := by
          simp [numGroupsGo, hc]
        rw [this]

theorem takeWhile_ne_nil_len {p : Char → Bool} {l : Str}
    (h : (l.takeWhile p).isEmpty = false) : 1 ≤ (l.takeWhile p).length := by
  cases hl : l.takeWhile p with
  | nil => rw [hl] at h; simp at h
  | cons a as => simp

theorem archNumbered_min_len (l : Str) (h : archNumbered l = true) : 3 ≤ l.length := by
  simp only [archNumbered] at h
  split at h
  · exact absurd h (by simp)
  · rename_i hd
    have hd1 : 1 ≤ (l.takeWhile (fun c => isDig c)).length :=
      takeWhile_ne_nil_len (by simpa using hd)
    split at h
    · exact absurd h (by simp)
    · rename_i hw
      have hw1 : 1 ≤ ((numGroups (l.dropWhile (fun c => isDig c))).takeWhile
          (fun c => isWs c)).length :=
        takeWhile_ne_nil_len (by simpa using hw)
      split at h
      · exact absurd h (by simp)
      · rename_i heq
        have hg1 : 1 ≤ ((numGroups (l.dropWhile (fun c => isDig c))).dropWhile
            (fun c => isWs c)).length := by
          rw [heq]
          simp
        have hsum : ((numGroups (l.dropWhile (fun c => isDig c))).takeWhile
              (fun c => isWs c)).length +
            ((numGroups (l.dropWhile (fun c => isDig c))).dropWhile
              (fun c => isWs c)).length =
            (numGroups (l.dropWhile (fun c => isDig c))).length := by
          rw [← List.length_append, List.takeWhile_append_dropWhile]
        have hng : (numGroups (l.dropWhile (fun c => isDig c))).length ≤
            (l.dropWhile (fun c => isDig c)).length := numGroupsGo_len _ _
        have hsl : (l.takeWhile (fun c => isDig c)).length +
            (l.dropWhile (fun c => isDig c)).length = l.length := by
          rw [← List.length_append, List.takeWhile_append_dropWhile]
        omega

theorem core_heading_bounds (line : Str) (h : isHeadingLine line = true) :
    3 ≤ (pyStrip line).length ∧ (pyStrip line).length ≤ 120 := by
  simp only [isHeadingLine] at h
  split at h
  · exact absurd h (by simp)
  · split at h
    · exact absurd h (by simp)
    · rename_i hg
      have hg2 : (Nat.ble 3 (pyStrip line).length &&
          Nat.ble (pyStrip line).length 80) = true := by
        simpa using hg
      obtain ⟨h3, h80⟩ := (Bool.and_eq_true _ _).mp hg2
      exact ⟨Nat.le_of_ble_eq_true h3,
        Nat.le_trans (Nat.le_of_ble_eq_true h80) (by omega)⟩

theorem arch_heading_bounds (line : Str) (h : archIsHeadingLine line = true) :
    3 ≤ (pyStrip line).length ∧ (pyStrip line).length ≤ 120 := by
  simp only [archIsHeadingLine] at h
  split at h
  · exact absurd h (by simp)
  · rename_i h120
    have hle : (pyStrip line).length ≤ 120 := by
      by_contra hgt
      exact h120 (by simp [Nat.blt_eq]; omega)
    split at h
    · rename_i heqv
      have hg3 := heqv
      refine ⟨?_, hle⟩
      have hmap : (lowerS (pyStrip line)).length = (pyStrip line).length :=
        List.length_map _ _
      rcases (Bool.or_eq_true _ _).mp hg3 with he | he
      · have := congrArg List.length (of_decide_eq_true he)
        rw [hmap] at this
        simp [s2l] at this
        omega
      · have := congrArg List.length (of_decide_eq_true he)
        rw [hmap] at this
        simp [s2l] at this
        omega
    · exact ⟨archNumbered_min_len _ h, hle⟩

/-- C8: for every line, both `is_heading_line` implementations (the core one
in src/paper2ppt_core/sections.py, which demands a trimmed length in [3, 80],
and the archive one in src/archive/paper2ppt.py, whose accepting branches all
need at least 3 characters and which rejects lines longer than 120) return
True only if the trimmed line's length is between 3 and 120; every line whose
trimmed length is outside that range is classified as not a heading. -/
theorem c8_heading_length_bounds (line : Str) :
    (isHeadingLine line = true →
      3 ≤ (pyStrip line).length ∧ (pyStrip line).length ≤ 120) ∧
    (archIsHeadingLine line = true →
      3 ≤ (pyStrip line).length ∧ (pyStrip line).length ≤ 120) :=
  ⟨core_heading_bounds line, arch_heading_bounds line⟩

/-- C8 witness: both implementations classify `"1 Introduction"` as a
heading, and its trimmed length lies within the claimed range. -/
theorem c8_witness :
    (3 ≤ (pyStrip (s2l ("1 Introduction"))).length ∧
      (pyStrip (s2l ("1 Introduction"))).length ≤ 120) ∧
    (3 ≤ (pyStrip (s2l ("1 Introduction"))).length ∧
      (pyStrip (s2l ("1 Introduction"))).length ≤ 120) :=
  ⟨(c8_heading_length_bounds (s2l ("1 Introduction"))).1 (by decide),
   (c8_heading_length_bounds (s2l ("1 Introduction"))).2 (by decide)⟩

/-!  ## C4 / C5 — figure association and image exclusivity  -/

theorem mem_pInsert : ∀ {l : List Str} {p x : Str}, p ∈ pInsert x l → p = x ∨ p ∈ l := by
  intro l
  induction l with
  | nil =>
    intro p x h
    simp [pInsert] at h
    exact Or.inl h
  | cons y ys ih =>
    intro p x h
    simp only [pInsert] at h
    by_cases hb : Nat.ble (pageNumberFromPath x) (pageNumberFromPath y) = true
    · rw [if_pos hb] at h
      rcases List.mem_cons.mp h with h | h
      · exact Or.inl h
      · exact Or.inr h
    · rw [if_neg hb] at h
      rcases List.mem_cons.mp h with h | h
      · exact Or.inr (by simp [h])
      · rcases ih h with h2 | h2
        · exact Or.inl h2
        · exact Or.inr (List.mem_cons_of_mem _ h2)

theorem mem_pageSort : ∀ {l : List Str} {p : Str}, p ∈ pageSort l → p ∈ l := by
  intro l
  induction l with
  | nil =>
    intro p h
    simpa [pageSort] using h
  | cons x xs ih =>
    intro p h
    simp only [pageSort] at h
    rcases mem_pInsert h with h2 | h2
    · simp [h2]
    · exact List.mem_cons_of_mem _ (ih h2)

theorem mem_lastN {p : Str} {l : List Str} {n : Nat} (h : p ∈ lastN l n) : p ∈ l := by
  simp only [lastN] at h
  split at h
  · exact h
  · exact List.mem_of_mem_drop h

theorem contains_false_not_mem {p : Str} {used : List Str}
    (h : used.contains p = false) : p ∉ used := by
  intro hmem
  have h2 : List.elem p used = true := List.elem_iff.mpr hmem
  simp only [List.contains] at h
  rw [h2] at h
  cases h

/-- Every image returned by `select_best_images` comes from the supplied
candidate pool and is not in `used_images`. -/
theorem selBest_mem {paths : List Str} {secName : Str} {used : List Str}
    {mx : Nat} {p : Str} (h : p ∈ selectBestImages paths secName used mx) :
    p ∈ paths ∧ p ∉ used := by
  simp only [selectBestImages] at h
  split at h
  · simp at h
  · have hcand : p ∈ paths.filter (fun q => !used.contains q) := by
      split at h
      · exact mem_pageSort (List.mem_of_mem_take h)
      · exact mem_pageSort (mem_lastN h)
    have hmf := List.mem_filter.mp hcand
    refine ⟨hmf.1, contains_false_not_mem ?_⟩
    simpa using hmf.2

/-- The images a section selects inside `generate_slides` come from the whole
document's image list and exclude `used_images`. -/
theorem sectionStep_sel {pi : List (Nat × List PImg)} {used : List Str} {s : PSec} :
    ∀ p ∈ (sectionStep pi used s).2, p ∈ allPaths pi ∧ p ∉ used := by
  intro p hp
  simp only [sectionStep] at hp
  split_ifs at hp
  all_goals try dsimp only at hp
  all_goals first
    | exact selBest_mem hp
    | exact absurd hp (by simp)

theorem genFold_sels (pi : List (Nat × List PImg)) :
    ∀ (secs : List PSec) (used : List Str),
      ((genFold pi secs used).2.Pairwise (fun a b => ∀ p, p ∈ a.2 → p ∉ b.2)) ∧
      (∀ pr ∈ (genFold pi secs used).2, ∀ p ∈ pr.2,
        p ∈ allPaths pi ∧ p ∉ used) := by
  intro secs
  induction secs with
  | nil =>
    intro used
    constructor
    · simp [genFold]
    · simp [genFold]
  | cons s rest ih =>
    intro used
    have step := @sectionStep_sel pi used s
    obtain ⟨ihPW, ihNU⟩ := ih (used ++ (sectionStep pi used s).2)
    constructor
    · simp only [genFold]
      rw [List.pairwise_cons]
      constructor
      · intro b hb p hp hpb
        have := (ihNU b hb p hpb).2
        exact this (List.mem_append_right used hp)
      · exact ihPW
    · intro pr hpr p hp
      simp only [genFold] at hpr
      rcases List.mem_cons.mp hpr with hpr | hpr
      · subst hpr
        exact step p hp
      · obtain ⟨hall, hnu⟩ := ihNU pr hpr p hp
        exact ⟨hall, fun hmem => hnu (List.mem_append_left _ hmem)⟩

/-- Formalization of the claim's candidate pool: the images lying on pages in
the given `pages` set. -/
def pathsOnPages (pagesImages : List (Nat × List PImg)) (pages : List Nat) : List Str :=
  ((pagesImages.filter (fun pr => pages.contains pr.1)).map
    (fun pr => pr.2.map (fun i => i.path))).flatten

def c4pages : List Str :=
  [s2l ("1 Method\nThe model uses an encoder and a decoder for this task."), []]

def c4imgs : List (Nat × List PImg) := [(1, [PImg.mk (s2l ("page_2.png")) []])]

/-- C4 counterexample: a document whose only (Method) section has page set
{0} while its only image sits on page 1 still selects that image, so the
candidate pool is not restricted to the section's pages. -/
theorem c4_counterexample :
    ¬ (∀ pr ∈ sectionSelections c4pages c4imgs, ∀ p ∈ pr.2,
        p ∈ pathsOnPages c4imgs pr.1.pages) := by
  decide

/-- C4 (amended): the images offered to the Figure Associator for a section
are drawn from the entire document's image list minus `used_images` — the
section's `pages` set is never consulted, so images from pages outside the
section's page set can be (and are, see the counterexample) candidates.
Formally: every image a section selects in a `generate_slides` run belongs to
the document-wide image list, and `select_best_images` offers exactly
candidates from its supplied pool that are not in `used_images`. -/
theorem c4_offered_pool :
    (∀ (pagesText : List Str) (pagesImages : List (Nat × List PImg)),
      ∀ pr ∈ sectionSelections pagesText pagesImages, ∀ p ∈ pr.2,
        p ∈ allPaths pagesImages) ∧
    (∀ (paths : List Str) (secName : Str) (used : List Str) (mx : Nat),
      ∀ p ∈ selectBestImages paths secName used mx, p ∈ paths ∧ p ∉ used) := by
  constructor
  · intro pt pi pr hpr p hp
    exact (((genFold_sels pi (splitIntoSections pt) []).2) pr hpr p hp).1
  · intro paths secName used mx p hp
    exact selBest_mem hp

/-- C4 witness: the amended pool property applied to a concrete selection. -/
theorem c4_witness :
    s2l ("page_2.png") ∈ [s2l ("page_2.png")] ∧
      s2l ("page_2.png") ∉ ([] : List Str) :=
  c4_offered_pool.2 [s2l ("page_2.png")] (s2l ("Method")) [] 2
    (s2l ("page_2.png")) (by decide)

/-- C5: in one run of `generate_slides`, the image sets selected for any two
distinct sections are disjoint: each selection filters out `used_images`, and
every selected image is added to `used_images` before the next section is
processed. -/
theorem c5_image_exclusivity :
    ∀ (pagesText : List Str) (pagesImages : List (Nat × List PImg)),
      (sectionSelections pagesText pagesImages).Pairwise
        (fun a b => ∀ p, p ∈ a.2 → p ∉ b.2) :=
  fun pt pi => (genFold_sels pi (splitIntoSections pt) []).1

/-- C5 witness: pairwise disjointness of the per-section selections on a
concrete run. -/
theorem c5_witness :
    (sectionSelections c4pages c4imgs).Pairwise
      (fun a b => ∀ p, p ∈ a.2 → p ∉ b.2) :=
  c5_image_exclusivity c4pages c4imgs

/-!  ## Word-count and suffix toolbox for C2  -/

def wsFlag (f : Bool) (x : Str) : Bool := x.foldl (fun _ c => isWs c) f

theorem wsFlag_nil (f : Bool) : wsFlag f [] = f := rfl

theorem wsFlag_append (f : Bool) (x y : Str) :
    wsFlag f (x ++ y) = wsFlag (wsFlag f x) y := by
  simp [wsFlag, List.foldl_append]

theorem wsFlag_snoc (f : Bool) (x : Str) (c : Char) :
    wsFlag f (x ++ [c]) = isWs c := by
  simp [wsFlag, List.foldl_append]

theorem wcGo_append (x : Str) : ∀ (f : Bool) (y : Str),
    wcGo f (x ++ y) = wcGo f x + wcGo (wsFlag f x) y := by
  induction x with
  | nil => intro f y; simp [wcGo, wsFlag]
  | cons c cs ih =>
    intro f y
    by_cases hc : isWs c = true
    · simp only [List.cons_append, wcGo, hc, if_true, List.append_eq]
      rw [ih true y]
      congr 1
      simp [wsFlag, hc]
    · have hc2 : isWs c = false := by simpa using hc
      simp only [List.cons_append, wcGo, hc2, Bool.false_eq_true, if_false,
        List.append_eq]
      rw [ih false y]
      simp only [wsFlag, List.foldl_cons, hc2]
      omega

theorem wcGo_nonws_single (f : Bool) (c : Char) :
    wcGo f [c] = if f ∧ isWs c = false then 1 else 0 := by
  by_cases hc : isWs c = true
  · simp [wcGo, hc]
  · have hc2 : isWs c = false := by simpa using hc
    cases f <;> simp [wcGo, hc2]

/-- Appending one character to a string whose last character is not
whitespace never changes the word count. -/
theorem wc_snoc_of_last_nonws (u : Str) (d c : Char) (hd : isWs d = false) :
    wc ((u ++ [d]) ++ [c]) = wc (u ++ [d]) := by
  show wcGo true ((u ++ [d]) ++ [c]) = wcGo true (u ++ [d])
  rw [wcGo_append (u ++ [d]) true [c], wsFlag_snoc, hd]
  simp [wcGo_nonws_single]

/-- Appending one non-whitespace character to the empty string or to a
string ending in whitespace adds exactly one word. -/
theorem wc_snoc_of_last_ws (s : Str) (c : Char) (hc : isWs c = false)
    (hs : s = [] ∨ ∃ u d, s = u ++ [d] ∧ isWs d = true) :
    wc (s ++ [c]) = wc s + 1 := by
  rcases hs with rfl | ⟨u, d, rfl, hd⟩
  · simp [wc, wcGo, hc]
  · show wcGo true ((u ++ [d]) ++ [c]) = wcGo true (u ++ [d]) + 1
    rw [wcGo_append (u ++ [d]) true [c], wsFlag_snoc, hd]
    simp [wcGo_nonws_single, hc]

theorem wcGo_all_nonws (p : Str) (hp : ∀ c ∈ p, isWs c = false) :
    wcGo false p = 0 ∧ (p ≠ [] → wcGo true p = 1) := by
  induction p with
  | nil => simp [wcGo]
  | cons c cs ih =>
    have hc : isWs c = false := hp c (List.mem_cons_self c cs)
    have hcs : ∀ x ∈ cs, isWs x = false := fun x hx => hp x (List.mem_cons_of_mem c hx)
    obtain ⟨ih0, _⟩ := ih hcs
    constructor
    · simp [wcGo, hc, ih0]
    · intro _
      simp [wcGo, hc, ih0]

/-- `ew` (Python `endswith`) characterization. -/
theorem ew_iff (l p : Str) : ew l p = true ↔ ∃ u, l = u ++ p := by
  constructor
  · intro h
    obtain ⟨h1, h2⟩ := (Bool.and_eq_true _ _).mp h
    have heq : l.drop (l.length - p.length) = p := eq_of_beq h2
    refine ⟨l.take (l.length - p.length), ?_⟩
    conv_lhs => rw [← List.take_append_drop (l.length - p.length) l]
    rw [heq]
  · rintro ⟨u, rfl⟩
    simp only [ew]
    rw [Bool.and_eq_true]
    constructor
    · exact Nat.ble_eq_true_of_le (by simp)
    · have hlen : (u ++ p).length - p.length = u.length := by simp
      rw [hlen, List.drop_left]
      exact beq_self_eq_true p

theorem charContains_true_iff {set : List Char} {d : Char} :
    set.contains d = true ↔ d ∈ set := by
  simp only [List.contains]
  exact List.elem_iff

theorem dropWhile_head_false {p : Char → Bool} :
    ∀ {l : Str} {c : Char} {ts : Str}, l.dropWhile p = c :: ts → p c = false := by
  intro l
  induction l with
  | nil => intro c ts h; cases h
  | cons a as ih =>
    intro c ts h
    by_cases hp : p a = true
    · rw [List.dropWhile_cons_of_pos hp] at h
      exact ih h
    · rw [List.dropWhile_cons_of_neg hp] at h
      cases h
      simpa using hp

theorem rstripSet_decomp (set : List Char) (l : Str) :
    ∃ p, l = rstripSet set l ++ p ∧ ∀ c ∈ p, set.contains c = true := by
  refine ⟨(l.reverse.takeWhile (fun c => set.contains c)).reverse, ?_, ?_⟩
  · have h := List.takeWhile_append_dropWhile (p := fun c => set.contains c) (l := l.reverse)
    calc l = l.reverse.reverse := (List.reverse_reverse l).symm
      _ = (l.reverse.takeWhile (fun c => set.contains c) ++
            l.reverse.dropWhile (fun c => set.contains c)).reverse := by rw [h]
      _ = rstripSet set l ++ (l.reverse.takeWhile (fun c => set.contains c)).reverse := by
          rw [List.reverse_append]
          rfl
  · intro c hc
    rw [List.mem_reverse] at hc
    exact List.mem_takeWhile_imp hc

theorem rstripSet_last (set : List Char) (l : Str) {c : Char} {ts : Str}
    (h : rstripSet set l = c :: ts) :
    ∃ v d, rstripSet set l = v ++ [d] ∧ set.contains d = false := by
  unfold rstripSet at h ⊢
  cases hdp : l.reverse.dropWhile (fun c => set.contains c) with
  | nil => rw [hdp] at h; cases h
  | cons a as =>
    have ha : set.contains a = false := dropWhile_head_false hdp
    exact ⟨as.reverse, a, by simp, ha⟩

theorem rstripSet_id (set : List Char) (u : Str) (d : Char)
    (hd : set.contains d = false) : rstripSet set (u ++ [d]) = u ++ [d] := by
  have hd2 : d ∉ set := fun hm => by
    rw [charContains_true_iff.mpr hm] at hd
    cases hd
  unfold rstripSet
  rw [List.reverse_append]
  simp only [List.reverse_cons, List.reverse_nil, List.nil_append, List.singleton_append]
  rw [List.dropWhile_cons_of_neg (by simp [hd2])]
  simp

theorem rstripSet_snoc (set : List Char) (w : Str) (x d : Char)
    (hx : set.contains x = false) (hd : set.contains d = true) :
    rstripSet set ((w ++ [x]) ++ [d]) = w ++ [x] := by
  have hd2 : d ∈ set := charContains_true_iff.mp hd
  have hx2 : x ∉ set := fun hm => by
    rw [charContains_true_iff.mpr hm] at hx
    cases hx
  unfold rstripSet
  rw [List.reverse_append, List.reverse_append]
  simp only [List.reverse_cons, List.reverse_nil, List.nil_append, List.singleton_append]
  rw [List.dropWhile_cons_of_pos (by simp [hd2]), List.dropWhile_cons_of_neg (by simp [hx2])]
  simp

theorem lstrip_id (c : Char) (ts : Str) (hc : isWs c = false) :
    lstrip (c :: ts) = c :: ts := by
  unfold lstrip
  rw [List.dropWhile_cons_of_neg (by simp [hc])]

theorem rstripWs_id (u : Str) (d : Char) (hd : isWs d = false) :
    rstripWs (u ++ [d]) = u ++ [d] := by
  unfold rstripWs
  rw [List.reverse_append]
  simp only [List.reverse_cons, List.reverse_nil, List.nil_append, List.singleton_append]
  rw [List.dropWhile_cons_of_neg (by simp [hd])]
  simp

/-- `strip` of a string with non-whitespace first and last characters. -/
theorem pyStrip_id (l : Str) (hhead : ∃ c ts, l = c :: ts ∧ isWs c = false)
    (hlast : ∃ u d, l = u ++ [d] ∧ isWs d = false) : pyStrip l = l := by
  obtain ⟨c, ts, rfl, hc⟩ := hhead
  obtain ⟨u, d, he, hd⟩ := hlast
  unfold pyStrip
  rw [lstrip_id c ts hc, he, rstripWs_id u d hd]

theorem pyStrip_head {l : Str} {c : Char} {ts : Str}
    (h : pyStrip l = c :: ts) : isWs c = false := by
  unfold pyStrip rstripWs at h
  obtain ⟨p, hdec, hall⟩ := rstripSet_decomp [] (lstrip l)
  cases hls : lstrip l with
  | nil =>
    rw [hls] at h
    simp at h
  | cons a as =>
    have ha : isWs a = false := dropWhile_head_false hls
    have hpr : ((lstrip l).reverse.dropWhile (fun x => isWs x)).reverse = c :: ts := h
    have hprefix : ∃ q, lstrip l = ((lstrip l).reverse.dropWhile (fun x => isWs x)).reverse ++ q := by
      refine ⟨((lstrip l).reverse.takeWhile (fun x => isWs x)).reverse, ?_⟩
      have ht := List.takeWhile_append_dropWhile (p := fun x => isWs x) (l := (lstrip l).reverse)
      calc lstrip l = (lstrip l).reverse.reverse := (List.reverse_reverse _).symm
        _ = ((lstrip l).reverse.takeWhile (fun x => isWs x) ++
              (lstrip l).reverse.dropWhile (fun x => isWs x)).reverse := by rw [ht]
        _ = _ := by rw [List.reverse_append]
    obtain ⟨q, hq⟩ := hprefix
    rw [hpr, hls] at hq
    cases hq
    exact ha

theorem pyStrip_last {l : Str} {c : Char} {ts : Str}
    (h : pyStrip l = c :: ts) :
    ∃ u d, pyStrip l = u ++ [d] ∧ isWs d = false := by
  unfold pyStrip rstripWs at h ⊢
  cases hdp : (lstrip l).reverse.dropWhile (fun x => isWs x) with
  | nil => rw [hdp] at h; cases h
  | cons a as =>
    have ha : isWs a = false := dropWhile_head_false hdp
    exact ⟨as.reverse, a, by simp, ha⟩

theorem ensureDot_of_dot (s : Str) (h : ∃ u, s = u ++ [ '.' ]) :
    ensureDot s = s := by
  unfold ensureDot
  rw [if_pos]
  exact (ew_iff s (s2l ("."))).mpr h

theorem ensureDot_of_not_dot (s : Str) (h : ew s (s2l (".")) = false) :
    ensureDot s = s ++ [ '.' ] := by
  unfold ensureDot
  rw [if_neg]
  simp [h]

theorem ew_append_of_le (x y p : Str) (hle : p.length ≤ y.length) :
    ew (x ++ y) p = ew y p := by
  simp only [ew]
  have h1 : Nat.ble p.length (x ++ y).length = true :=
    Nat.ble_eq_true_of_le (by simp; omega)
  have h2 : Nat.ble p.length y.length = true := Nat.ble_eq_true_of_le hle
  rw [h1, h2]
  have h3 : (x ++ y).length - p.length = x.length + (y.length - p.length) := by
    simp
    omega
  rw [h3, List.drop_append]

theorem ew_of_ew_le (l p q : Str) (hp : ew l p = true) (hq : ew l q = true)
    (hle : p.length ≤ q.length) : ew q p = true := by
  obtain ⟨u, hu⟩ := (ew_iff l p).mp hp
  obtain ⟨v, hv⟩ := (ew_iff l q).mp hq
  have hdrop : l.drop (l.length - p.length) = p := by
    rw [hu]
    have : (u ++ p).length - p.length = u.length := by simp
    rw [this, List.drop_left]
  have hdrop2 : l.drop (l.length - p.length) = q.drop (q.length - p.length) := by
    rw [hv]
    have hlen : (v ++ q).length - p.length = v.length + (q.length - p.length) := by
      simp
      omega
    rw [hlen, List.drop_append]
  rw [ew_iff]
  refine ⟨q.take (q.length - p.length), ?_⟩
  conv_lhs => rw [← List.take_append_drop (q.length - p.length) q]
  rw [← hdrop2, hdrop]

theorem lowerS_append (x y : Str) : lowerS (x ++ y) = lowerS x ++ lowerS y := by
  simp [lowerS]

theorem lowerS_upperFirst (s : Str) : lowerS (upperFirst s) = lowerS s := by
  cases s with
  | nil => rfl
  | cons c cs => simp [upperFirst, lowerS, toLowerC_toUpperC]

theorem toUpperC_dot : toUpperC '.' = '.' := by decide

theorem lowerS_snoc_dot (u : Str) : lowerS (u ++ [ '.' ]) = lowerS u ++ [ '.' ] := by
  simp [lowerS]
  decide

theorem wc_upperFirst (t : Str) : wc (upperFirst t) = wc t := by
  cases t with
  | nil => rfl
  | cons c cs =>
    show wcGo true (toUpperC c :: cs) = wcGo true (c :: cs)
    simp only [wcGo, isWs_toUpperC]

theorem upperFirst_ends_dot (t : Str) (h : ∃ u, t = u ++ [ '.' ]) :
    ∃ u, upperFirst t = u ++ [ '.' ] := by
  obtain ⟨u, rfl⟩ := h
  cases u with
  | nil => exact ⟨[], by simp [upperFirst, toUpperC_dot]⟩
  | cons c cs => exact ⟨toUpperC c :: cs, by simp [upperFirst]⟩

theorem lowerS_ends_dot (t : Str) (h : ∃ u, t = u ++ [ '.' ]) :
    ∃ u, lowerS t = u ++ [ '.' ] := by
  obtain ⟨u, rfl⟩ := h
  exact ⟨lowerS u, lowerS_snoc_dot u⟩

theorem ew_last_ne (l p : Str) (x y : Char) (hl : ∃ u, l = u ++ [x])
    (hp : ∃ v, p = v ++ [y]) (hne : x ≠ y) : ew l p = false := by
  obtain ⟨u, rfl⟩ := hl
  obtain ⟨v, rfl⟩ := hp
  by_contra hx
  have ht : ew (u ++ [x]) (v ++ [y]) = true := by
    cases he : ew (u ++ [x]) (v ++ [y]) with
    | false => exact absurd he hx
    | true => rfl
  obtain ⟨w, hw⟩ := (ew_iff _ _).mp ht
  have h1 : (u ++ [x]).getLast? = some x := List.getLast?_concat u
  have h2 : (u ++ [x]).getLast? = some y := by
    rw [hw, ← List.append_assoc]
    exact List.getLast?_concat (w ++ v)
  rw [h1] at h2
  exact hne (Option.some_injective _ h2)

theorem wc_all_nonws_one (p : Str) (hne : p ≠ [])
    (hp : ∀ c ∈ p, isWs c = false) : wc p = 1 :=
  (wcGo_all_nonws p hp).2 hne

/-- Appending non-whitespace characters to a string ending in a
non-whitespace character does not change the word count. -/
theorem wc_append_last_nonws (v p : Str) (d : Char) (hd : isWs d = false)
    (hp : ∀ c ∈ p, isWs c = false) : wc ((v ++ [d]) ++ p) = wc (v ++ [d]) := by
  show wcGo true ((v ++ [d]) ++ p) = wcGo true (v ++ [d])
  rw [wcGo_append (v ++ [d]) true p, wsFlag_snoc, hd, (wcGo_all_nonws p hp).1]
  omega

/-- Appending a nonempty run of non-whitespace characters to a string ending
in whitespace adds exactly one word. -/
theorem wc_append_last_ws (v p : Str) (d : Char) (hd : isWs d = true)
    (hne : p ≠ []) (hp : ∀ c ∈ p, isWs c = false) :
    wc ((v ++ [d]) ++ p) = wc (v ++ [d]) + 1 := by
  show wcGo true ((v ++ [d]) ++ p) = wcGo true (v ++ [d]) + 1
  rw [wcGo_append (v ++ [d]) true p, wsFlag_snoc, hd, (wcGo_all_nonws p hp).2 hne]

theorem rstripSet_head_eq (set : List Char) (c : Char) (ts : Str) {c2 : Char}
    {ts2 : Str} (h : rstripSet set (c :: ts) = c2 :: ts2) : c2 = c := by
  obtain ⟨p, hdec, _⟩ := rstripSet_decomp set (c :: ts)
  rw [h] at hdec
  exact (List.cons_eq_cons.mp hdec).1.symm

theorem punct_nonws : ∀ c, (s2l (",;:")).contains c = true → isWs c = false := by
  intro c hc
  have hm : c ∈ s2l (",;:") := charContains_true_iff.mp hc
  have hm2 : c = ',' ∨ c = ';' ∨ c = ':' := by
    have : s2l (",;:") = [',', ';', ':'] := rfl
    rw [this] at hm
    simpa using hm
  rcases hm2 with rfl | rfl | rfl <;> decide

theorem dot_nonws : ∀ c, ([ '.' ] : List Char).contains c = true → isWs c = false := by
  intro c hc
  have hm : c ∈ ([ '.' ] : List Char) := charContains_true_iff.mp hc
  simp only [List.mem_singleton] at hm
  subst hm
  decide

theorem snoc_last_eq {u v : Str} {d e : Char} (h : u ++ [d] = v ++ [e]) : d = e := by
  have h1 : (u ++ [d]).getLast? = some d := List.getLast?_concat u
  have h2 : (v ++ [e]).getLast? = some e := List.getLast?_concat v
  rw [h, h2] at h1
  exact (Option.some_injective _ h1).symm

/-- `text.rstrip(",;:")` followed by the ensure-period step: for a stripped
input of at least two words the result keeps the word count and the head
character and ends with a period. -/
theorem ensureDot_rstrip_wc (text : Str)
    (hh : ∃ c ts, text = c :: ts ∧ isWs c = false)
    (hl : ∃ u d, text = u ++ [d] ∧ isWs d = false)
    (hwc : 2 ≤ wc text) :
    ∃ c2 ts2, ensureDot (rstripSet (s2l (",;:")) text) = c2 :: ts2 ∧
      isWs c2 = false ∧ (∃ u2, c2 :: ts2 = u2 ++ [ '.' ]) ∧
      wc (c2 :: ts2) = wc text := by
  obtain ⟨p, hdec, hall⟩ := rstripSet_decomp (s2l (",;:")) text
  have hpnw : ∀ x ∈ p, isWs x = false := fun x hx => punct_nonws x (hall x hx)
  obtain ⟨c, ts, htext, hc⟩ := hh
  cases hr : rstripSet (s2l (",;:")) text with
  | nil =>
    rw [hr, List.nil_append] at hdec
    have hne : text ≠ [] := by rw [htext]; simp
    have h1 : wc text = 1 := wc_all_nonws_one text hne (by rw [hdec]; exact hpnw)
    omega
  | cons c2 ts2 =>
    have hc2 : c2 = c := by
      have hr2 : rstripSet (s2l (",;:")) (c :: ts) = c2 :: ts2 := by rw [← htext, hr]
      exact rstripSet_head_eq _ c ts hr2
    obtain ⟨v, d2, hvd, hd2set⟩ := rstripSet_last (s2l (",;:")) text hr
    rw [hr] at hvd
    rw [hr] at hdec
    by_cases hdot : d2 = '.'
    · subst hdot
      refine ⟨c2, ts2, ?_, hc2 ▸ hc, ⟨v, hvd⟩, ?_⟩
      · rw [ensureDot_of_dot _ ⟨v, hvd⟩]
      · rw [hdec, hvd]
        cases hp : p with
        | nil => simp
        | cons x xs =>
          rw [← hp, wc_append_last_nonws v p '.' (by decide) hpnw]
    · have hedf : ew (c2 :: ts2) (s2l (".")) = false := by
        have : s2l (".") = ['.'] := rfl
        rw [this]
        exact ew_last_ne _ _ d2 '.' ⟨v, hvd⟩ ⟨[], rfl⟩ hdot
      rw [ensureDot_of_not_dot _ hedf]
      refine ⟨c2, ts2 ++ [ '.' ], by simp, hc2 ▸ hc, ⟨c2 :: ts2, by simp⟩, ?_⟩
      show wc ((c2 :: ts2) ++ [ '.' ]) = wc text
      by_cases hws : isWs d2 = true
      · have hpne : p ≠ [] := by
          intro hpnil
          rw [hpnil, List.append_nil] at hdec
          obtain ⟨u, d, hud, hdnw⟩ := hl
          have heq : u ++ [d] = v ++ [d2] := hud.symm.trans (hdec.trans hvd)
          rw [snoc_last_eq heq, hws] at hdnw
          cases hdnw
        rw [hvd, wc_append_last_ws v [ '.' ] d2 hws (by simp) (by intro x hx; simp at hx; subst hx; decide)]
        rw [hdec, hvd, wc_append_last_ws v p d2 hws hpne hpnw]
      · have hws2 : isWs d2 = false := by simpa using hws
        rw [hvd, wc_append_last_nonws v [ '.' ] d2 hws2 (by intro x hx; simp at hx; subst hx; decide)]
        rw [hdec, hvd]
        cases hp : p with
        | nil => simp
        | cons x xs => rw [← hp, wc_append_last_nonws v p d2 hws2 hpnw]

theorem lpLoop_step (low e : Str) (rest : List Str) (b : Str) :
    lpLoop low (e :: rest) b =
      lpLoop low rest
        (if fireCond low e then rstripSet [ '.' ] b ++ s2l (" in practice.")
         else b) := rfl

theorem lpLoop_nofire (low : Str) (es : List Str) :
    ∀ b, (∀ e ∈ es, fireCond low e = false) → lpLoop low es b = b := by
  induction es with
  | nil => intro b _; rfl
  | cons e rest ih =>
    intro b h
    rw [lpLoop_step, h e (List.mem_cons_self e rest), if_neg (by simp)]
    exact ih b (fun x hx => h x (List.mem_cons_of_mem e hx))

theorem lpLoop_fire (low : Str) (es : List Str)
    (hu : ∀ a ∈ es, ∀ b ∈ es, fireCond low a = true → fireCond low b = true → a = b)
    (hnd : es.Nodup) : ∀ b,
    lpLoop low es b =
      if es.any (fun e => fireCond low e) then
        rstripSet [ '.' ] b ++ s2l (" in practice.")
      else b := by
  induction es with
  | nil => intro b; simp [lpLoop]
  | cons e rest ih =>
    intro b
    obtain ⟨hnotin, hnd2⟩ := List.nodup_cons.mp hnd
    cases hf : fireCond low e
    · rw [lpLoop_step, hf, if_neg (by simp)]
      have hu2 : ∀ a ∈ rest, ∀ b' ∈ rest,
          fireCond low a = true → fireCond low b' = true → a = b' :=
        fun a ha b' hb' => hu a (List.mem_cons_of_mem e ha) b' (List.mem_cons_of_mem e hb')
      rw [ih hu2 hnd2 b]
      simp [List.any_cons, hf]
    · have hrest : ∀ x ∈ rest, fireCond low x = false := by
        intro x hx
        cases hx2 : fireCond low x
        · rfl
        · exfalso
          have : e = x :=
            hu e (List.mem_cons_self e rest) x (List.mem_cons_of_mem e hx) hf hx2
          exact hnotin (this ▸ hx)
      rw [lpLoop_step, hf, if_pos rfl, lpLoop_nofire low rest _ hrest]
      simp [List.any_cons, hf]

theorem bad_last_not_dot : ∀ a ∈ badEndings, ew (' ' :: a) [ '.' ] = false := by decide

theorem bad_pair_table : ∀ a ∈ badEndings, ∀ b ∈ badEndings,
    ew (' ' :: (b ++ [ '.' ])) (' ' :: (a ++ [ '.' ])) = true → a = b := by decide

theorem badEndings_nodup : badEndings.Nodup := by decide

theorem fire_dot (low a : Str) (hdot : ∃ u, low = u ++ [ '.' ])
    (ha : a ∈ badEndings) (h : fireCond low a = true) :
    ew low (' ' :: (a ++ [ '.' ])) = true := by
  rcases (Bool.or_eq_true _ _).mp h with h1 | h2
  · exfalso
    have hewdot : ew low [ '.' ] = true := (ew_iff _ _).mpr hdot
    have h3 := ew_of_ew_le low [ '.' ] (' ' :: a) hewdot h1 (by simp)
    rw [bad_last_not_dot a ha] at h3
    cases h3
  · exact h2

theorem fire_unique (low : Str) (hdot : ∃ u, low = u ++ [ '.' ]) :
    ∀ a ∈ badEndings, ∀ b ∈ badEndings,
      fireCond low a = true → fireCond low b = true → a = b := by
  intro a ha b hb hfa hfb
  have h1 := fire_dot low a hdot ha hfa
  have h2 := fire_dot low b hdot hb hfb
  rcases Nat.le_total (' ' :: (a ++ [ '.' ])).length (' ' :: (b ++ [ '.' ])).length
    with hle | hle
  · exact bad_pair_table a ha b hb (ew_of_ew_le low _ _ h1 h2 hle)
  · exact (bad_pair_table b hb a ha (ew_of_ew_le low _ _ h2 h1 hle)).symm

/-- On a text whose lowercase ends in a period, the bad-endings loop of
`light_polish_bullet` fires at most once, so its result is either the input
or the rstripped input plus `" in practice."`. -/
theorem lpLoop_bad (low b : Str) (hdot : ∃ u, low = u ++ [ '.' ]) :
    lpLoop low badEndings b =
      if badEndings.any (fun e => fireCond low e) then
        rstripSet [ '.' ] b ++ s2l (" in practice.")
      else b :=
  lpLoop_fire low badEndings (fire_unique low hdot) badEndings_nodup b

theorem sw_star (t : Str) : sw (s2l ("* ") ++ t) (s2l ("* ")) = true := by
  have h : s2l ("* ") = ['*', ' '] := rfl
  rw [h]
  simp [sw]

theorem drop2_star (t : Str) : (s2l ("* ") ++ t).drop 2 = t := rfl

theorem pyStrip_star (t u : Str) (c : Char) (ts : Str) (ht : t = c :: ts)
    (hu : t = u ++ [ '.' ]) : pyStrip (s2l ("* ") ++ t) = s2l ("* ") ++ t := by
  apply pyStrip_id
  · exact ⟨'*', ' ' :: t, rfl, by decide⟩
  · exact ⟨s2l ("* ") ++ u, '.', by rw [hu, List.append_assoc], by decide⟩

theorem nd_practice : ∀ e ∈ badEndings,
    ew (s2l (" in practice.")) (' ' :: e) = false ∧
      ew (s2l (" in practice.")) (' ' :: (e ++ [ '.' ])) = false := by decide

theorem len_practice : ∀ e ∈ badEndings,
    (' ' :: e).length ≤ (s2l (" in practice.")).length ∧
      (' ' :: (e ++ [ '.' ])).length ≤ (s2l (" in practice.")).length := by decide

theorem lowerS_practice : lowerS (s2l (" in practice.")) = s2l (" in practice.") := by
  decide

theorem practice_snoc : s2l (" in practice.") = s2l (" in practice") ++ [ '.' ] := rfl

theorem wcGo_practice_true : wcGo true (s2l (" in practice.")) = 2 := by decide

theorem wcGo_practice_false : wcGo false (s2l (" in practice.")) = 2 := by decide

/-- The text part after appending `" in practice."` matches no dangling-ending
pattern. -/
theorem nd_after_practice (x : Str) : ∀ e ∈ badEndings,
    fireCond (x ++ s2l (" in practice.")) e = false := by
  intro e he
  obtain ⟨hnd1, hnd2⟩ := nd_practice e he
  obtain ⟨hl1, hl2⟩ := len_practice e he
  show (ew (x ++ s2l (" in practice.")) (' ' :: e) ||
    ew (x ++ s2l (" in practice.")) (' ' :: (e ++ [ '.' ]))) = false
  rw [ew_append_of_le x _ _ hl1, ew_append_of_le x _ _ hl2, hnd1, hnd2]
  rfl

theorem wc_append_practice (r : Str) :
    wc (r ++ s2l (" in practice.")) = wc r + 2 := by
  show wcGo true (r ++ s2l (" in practice.")) = wcGo true r + 2
  rw [wcGo_append r true (s2l (" in practice."))]
  cases h : wsFlag true r
  · rw [wcGo_practice_false]
  · rw [wcGo_practice_true]

/-- Evaluation of `light_polish_bullet` on a well-formed bullet: the result
is the (possibly dangling-ending-fixed) text, capitalized, behind `"* "`. -/
theorem lightPolish_eval (b t : Str) (c : Char) (ts u : Str)
    (hb : b = s2l ("* ") ++ t) (ht : t = c :: ts) (hc : isWs c = false)
    (hu : t = u ++ [ '.' ]) :
    lightPolishBullet b =
      if badEndings.any (fun e => fireCond (lowerS t) e) then
        s2l ("* ") ++ upperFirst (rstripSet [ '.' ] t ++ s2l (" in practice."))
      else s2l ("* ") ++ upperFirst t := by
  subst hb
  have hpyt : pyStrip t = t :=
    pyStrip_id t ⟨c, ts, ht, hc⟩ ⟨u, '.', hu, by decide⟩
  have hdot : ∃ w, lowerS t = w ++ [ '.' ] := lowerS_ends_dot t ⟨u, hu⟩
  unfold lightPolishBullet
  dsimp only
  rw [pyStrip_star t u c ts ht hu, sw_star t, if_pos rfl, drop2_star t, hpyt,
    lpLoop_bad (lowerS t) t hdot]
  cases hany : badEndings.any (fun e => fireCond (lowerS t) e)
  · rw [if_neg (by simp), if_neg (by simp)]
    have h3 : rstripSet (s2l (",;:")) t = t := by
      rw [hu]
      exact rstripSet_id _ u '.' (by decide)
    rw [h3]
    congr 1
    exact ensureDot_of_dot _ (upperFirst_ends_dot t ⟨u, hu⟩)
  · rw [if_pos rfl, if_pos rfl]
    have hends : rstripSet [ '.' ] t ++ s2l (" in practice.") =
        (rstripSet [ '.' ] t ++ s2l (" in practice")) ++ [ '.' ] := by
      rw [practice_snoc, List.append_assoc]
    have h3 : rstripSet (s2l (",;:")) (rstripSet [ '.' ] t ++ s2l (" in practice.")) =
        rstripSet [ '.' ] t ++ s2l (" in practice.") := by
      rw [hends]
      exact rstripSet_id _ _ '.' (by decide)
    rw [h3]
    congr 1
    exact ensureDot_of_dot _
      (upperFirst_ends_dot _ ⟨rstripSet [ '.' ] t ++ s2l (" in practice"), hends⟩)

/-- One pass of `light_polish_bullet` on a well-formed bullet grows the word
count by at most 2 (the `" in practice."` fix), and the result matches no
dangling-ending pattern. -/
theorem lightPolish_grow (lo hi : Nat) (b : Str) (hlo : 2 ≤ lo)
    (hf : BulletForm lo hi false b) :
    BulletForm lo (hi + 2) true (lightPolishBullet b) := by
  obtain ⟨t, hb, ⟨c, ts, ht, hc⟩, ⟨u, hu⟩, hwlo, hwhi, _⟩ := hf
  rw [lightPolish_eval b t c ts u hb ht hc hu]
  cases hany : badEndings.any (fun e => fireCond (lowerS t) e)
  · rw [if_neg (by simp)]
    refine ⟨upperFirst t, rfl, ?_, upperFirst_ends_dot t ⟨u, hu⟩, ?_, ?_, ?_⟩
    · rw [ht]
      exact ⟨toUpperC c, ts, rfl, by rw [isWs_toUpperC, hc]⟩
    · rw [wc_upperFirst]; exact hwlo
    · rw [wc_upperFirst]; omega
    · intro _ e he
      rw [lowerS_upperFirst]
      exact Bool.eq_false_iff.mpr ((List.any_eq_false.mp hany) e he)
  · rw [if_pos rfl]
    obtain ⟨p, hdec, hall⟩ := rstripSet_decomp [ '.' ] t
    have hpnw : ∀ x ∈ p, isWs x = false := fun x hx => dot_nonws x (hall x hx)
    cases hr : rstripSet [ '.' ] t with
    | nil =>
      exfalso
      rw [hr, List.nil_append] at hdec
      have hne : t ≠ [] := by rw [ht]; simp
      have h1 : wc t = 1 := wc_all_nonws_one t hne (by rw [hdec]; exact hpnw)
      omega
    | cons c2 ts2 =>
      have hc2 : c2 = c := rstripSet_head_eq _ c ts (ht ▸ hr)
      obtain ⟨v, d2, hvd, hd2⟩ := rstripSet_last [ '.' ] t hr
      rw [hr] at hvd hdec
      have hd2ne : d2 ≠ '.' := by
        intro hdd
        rw [hdd] at hd2
        have : ([ '.' ] : List Char).contains '.' = true := by decide
        rw [this] at hd2
        cases hd2
      have hwr : wc t ≤ wc (c2 :: ts2) + 1 ∧ wc (c2 :: ts2) ≤ wc t := by
        cases hp : p with
        | nil =>
          rw [hp, List.append_nil] at hdec
          rw [← hdec]
          omega
        | cons x xs =>
          have hpne : p ≠ [] := by rw [hp]; simp
          by_cases hws : isWs d2 = true
          · have : wc t = wc (c2 :: ts2) + 1 := by
              rw [hdec, hvd, wc_append_last_ws v p d2 hws hpne hpnw]
            omega
          · have hws2 : isWs d2 = false := by simpa using hws
            have : wc t = wc (c2 :: ts2) := by
              rw [hdec, hvd, wc_append_last_nonws v p d2 hws2 hpnw]
            omega
      have hwb2 : wc ((c2 :: ts2) ++ s2l (" in practice.")) = wc (c2 :: ts2) + 2 :=
        wc_append_practice (c2 :: ts2)
      have hends : (c2 :: ts2) ++ s2l (" in practice.") =
          ((c2 :: ts2) ++ s2l (" in practice")) ++ [ '.' ] := by
        rw [practice_snoc, List.append_assoc]
      refine ⟨upperFirst ((c2 :: ts2) ++ s2l (" in practice.")), rfl, ?_,
        upperFirst_ends_dot _ ⟨(c2 :: ts2) ++ s2l (" in practice"), hends⟩, ?_, ?_, ?_⟩
      · exact ⟨toUpperC c2, ts2 ++ s2l (" in practice."), by simp [upperFirst],
          by rw [isWs_toUpperC, hc2, hc]⟩
      · rw [wc_upperFirst, hwb2]; omega
      · rw [wc_upperFirst, hwb2]; omega
      · intro _ e he
        rw [lowerS_upperFirst]
        show fireCond (lowerS ((c2 :: ts2) ++ s2l (" in practice."))) e = false
        rw [lowerS_append, lowerS_practice]
        exact nd_after_practice (lowerS (c2 :: ts2)) e he

/-- A second pass of `light_polish_bullet` on a bullet that matches no
dangling-ending pattern only capitalizes, keeping the word count. -/
theorem lightPolish_keep (lo hi : Nat) (b : Str)
    (hf : BulletForm lo hi true b) :
    BulletForm lo hi true (lightPolishBullet b) := by
  obtain ⟨t, hb, ⟨c, ts, ht, hc⟩, ⟨u, hu⟩, hwlo, hwhi, hnd⟩ := hf
  have hnd2 := hnd rfl
  rw [lightPolish_eval b t c ts u hb ht hc hu]
  have hany : badEndings.any (fun e => fireCond (lowerS t) e) = false :=
    List.any_eq_false.mpr (fun e he => by rw [hnd2 e he]; simp)
  rw [hany, if_neg (by simp)]
  refine ⟨upperFirst t, rfl, ?_, upperFirst_ends_dot t ⟨u, hu⟩, ?_, ?_, ?_⟩
  · rw [ht]
    exact ⟨toUpperC c, ts, rfl, by rw [isWs_toUpperC, hc]⟩
  · rw [wc_upperFirst]; exact hwlo
  · rw [wc_upperFirst]; exact hwhi
  · intro _ e he
    rw [lowerS_upperFirst]
    exact hnd2 e he

theorem mem_sInsert : ∀ {l : List Str} {p x : Str}, p ∈ sInsert x l → p = x ∨ p ∈ l := by
  intro l
  induction l with
  | nil =>
    intro p x hp
    simp [sInsert] at hp
    exact Or.inl hp
  | cons y ys ih =>
    intro p x hp
    unfold sInsert at hp
    split at hp
    · rcases List.mem_cons.mp hp with h | h
      · exact Or.inl h
      · exact Or.inr h
    · rcases List.mem_cons.mp hp with h | h
      · exact Or.inr (List.mem_cons.mpr (Or.inl h))
      · rcases ih h with h2 | h2
        · exact Or.inl h2
        · exact Or.inr (List.mem_cons.mpr (Or.inr h2))

theorem mem_stableSortScore : ∀ {l : List Str} {p : Str},
    p ∈ stableSortScore l → p ∈ l := by
  intro l
  induction l with
  | nil => intro p hp; simp [stableSortScore] at hp
  | cons x xs ih =>
    intro p hp
    unfold stableSortScore at hp
    rcases mem_sInsert hp with h | h
    · exact h ▸ List.mem_cons_self x xs
    · exact List.mem_cons_of_mem x (ih h)

theorem strip_of_form (b t : Str) (hb : b = s2l ("* ") ++ t) :
    (if sw b (s2l ("* ")) then b.drop 2 else b) = t := by
  subst hb
  rw [sw_star t, if_pos rfl, drop2_star t]

/-- `enhance_bullet_flow` only reorders well-formed bullets. -/
theorem enhance_form (lo hi : Nat) (nd : Bool) (l : List Str)
    (h : ∀ b ∈ l, BulletForm lo hi nd b) :
    ∀ b' ∈ enhanceBulletFlow l, BulletForm lo hi nd b' := by
  intro b' hb'
  unfold enhanceBulletFlow at hb'
  obtain ⟨x, hx, hbx⟩ := List.mem_map.mp hb'
  have hx2 : x ∈ l.map (fun b => if sw b (s2l ("* ")) then b.drop 2 else b) :=
    mem_stableSortScore hx
  obtain ⟨b, hbl, hb⟩ := List.mem_map.mp hx2
  obtain ⟨t, hbt, hrest⟩ := h b hbl
  have hxt : x = t := by rw [← hb, strip_of_form b t hbt]
  rw [← hbx, hxt, ← hbt]
  exact h b hbl

/-- `polish_bullets` is the identity on well-formed bullets (it may drop
ellipsis bullets). -/
theorem polish_form (lo hi : Nat) (nd : Bool) (l : List Str)
    (h : ∀ b ∈ l, BulletForm lo hi nd b) :
    ∀ b' ∈ polishBullets l, BulletForm lo hi nd b' := by
  intro b' hb'
  unfold polishBullets at hb'
  obtain ⟨b, hbf, hbx⟩ := List.mem_map.mp hb'
  have hbl : b ∈ l := (List.mem_filter.mp hbf).1
  obtain ⟨t, hbt, hh, ⟨u, hu⟩, hrest⟩ := h b hbl
  have hid : (s2l ("* ") ++
      ensureDot (rstripSet (s2l (",;:")) (if sw b (s2l ("* ")) then b.drop 2 else b))) = b := by
    rw [strip_of_form b t hbt, hu, rstripSet_id _ u '.' (by decide), ← hu,
      ensureDot_of_dot t ⟨u, hu⟩, hbt]
  rw [← hbx, hid]
  exact h b hbl

theorem dedupGo_subset : ∀ (l : List Str) (seen : List (List Str)) (b : Str),
    b ∈ dedupGo l seen → b ∈ l := by
  intro l
  induction l with
  | nil => intro seen b hb; simp [dedupGo] at hb
  | cons x xs ih =>
    intro seen b hb
    unfold dedupGo at hb
    dsimp only at hb
    split at hb
    · exact List.mem_cons_of_mem x (ih _ b hb)
    · rcases List.mem_cons.mp hb with h | h
      · exact h ▸ List.mem_cons_self x xs
      · exact List.mem_cons_of_mem x (ih _ b h)

theorem removeLowSignal_subset (l : List Str) (b : Str)
    (hb : b ∈ removeLowSignalBullets l) : b ∈ l :=
  (List.mem_filter.mp hb).1

theorem limit_subset (secName : Str) (l : List Str) (b : Str)
    (hb : b ∈ limitSectionBullets secName l) : b ∈ l := by
  unfold limitSectionBullets at hb
  split at hb
  · exact List.mem_of_mem_take hb
  · exact hb

theorem chunkBullets_mem (l : List Str) (ch : List Str) (b : Str)
    (hch : ch ∈ chunkBullets l) (hb : b ∈ ch) : b ∈ l := by
  have hfl : (chunkBullets l).flatten = l := by
    unfold chunkBullets
    split
    · rfl
    · rw [chunkRest_flatten]
      exact List.take_append_drop _ _
  rw [← hfl]
  exact List.mem_flatten.mpr ⟨ch, hch, hb⟩

theorem mem_enumFrom_snd {α : Type} : ∀ (l : List α) (n : Nat)
    (pr : Nat × α), pr ∈ l.enumFrom n → pr.2 ∈ l := by
  intro l
  induction l with
  | nil => intro n pr hpr; simp [List.enumFrom] at hpr
  | cons x xs ih =>
    intro n pr hpr
    rcases List.mem_cons.mp hpr with h | h
    · rw [h]
      exact List.mem_cons_self x xs
    · exact List.mem_cons_of_mem x (ih (n + 1) pr h)

theorem mem_enum_snd {α : Type} (l : List α) (pr : Nat × α)
    (h : pr ∈ l.enum) : pr.2 ∈ l :=
  mem_enumFrom_snd l 0 pr h

theorem bulletForm_of_text (lo hi : Nat) (t : Str) (h : TextForm lo hi t) :
    BulletForm lo hi false (s2l ("* ") ++ t) :=
  ⟨t, rfl, h.1, h.2.1, h.2.2.1, h.2.2.2, fun hf => Bool.noConfusion hf⟩

theorem pyStrip_form (l : Str) (h2 : 1 ≤ wc (pyStrip l)) :
    (∃ c ts, pyStrip l = c :: ts ∧ isWs c = false) ∧
      (∃ u d, pyStrip l = u ++ [d] ∧ isWs d = false) := by
  cases hs : pyStrip l with
  | nil => rw [hs] at h2; simp [wc, wcGo] at h2
  | cons c ts =>
    constructor
    · exact ⟨c, ts, rfl, pyStrip_head hs⟩
    · rw [← hs]
      exact pyStrip_last hs

theorem upperFirst_last_nonws (t u : Str) (d : Char) (ht : t = u ++ [d])
    (hd : isWs d = false) :
    ∃ v e, upperFirst t = v ++ [e] ∧ isWs e = false := by
  subst ht
  cases u with
  | nil => exact ⟨[], toUpperC d, by simp [upperFirst], by rw [isWs_toUpperC, hd]⟩
  | cons c cs => exact ⟨toUpperC c :: cs, d, by simp [upperFirst], hd⟩

theorem upperFirst_head (t : Str) (c : Char) (ts : Str) (ht : t = c :: ts)
    (hc : isWs c = false) :
    ∃ c2 ts2, upperFirst t = c2 :: ts2 ∧ isWs c2 = false := by
  subst ht
  exact ⟨toUpperC c, ts, rfl, by rw [isWs_toUpperC, hc]⟩

/-- `ensureDot` on a string with non-whitespace head and last characters:
keeps the head and the word count, and ends with a period. -/
theorem ensureDot_form (t : Str) (c : Char) (ts u : Str) (d : Char)
    (ht : t = c :: ts) (hc : isWs c = false) (hu : t = u ++ [d])
    (hd : isWs d = false) :
    (∃ ts2, ensureDot t = c :: ts2) ∧ (∃ u2, ensureDot t = u2 ++ [ '.' ]) ∧
      wc (ensureDot t) = wc t := by
  by_cases hed : ew t (s2l (".")) = true
  · have hw : ∃ w, t = w ++ [ '.' ] := by
      have : s2l (".") = ['.'] := rfl
      rw [this] at hed
      exact (ew_iff t ['.']).mp hed
    rw [ensureDot_of_dot t hw]
    exact ⟨⟨ts, ht⟩, hw, rfl⟩
  · have hf : ew t (s2l (".")) = false := by
      cases h2 : ew t (s2l (".")) with
      | false => rfl
      | true => exact absurd h2 hed
    rw [ensureDot_of_not_dot t hf]
    refine ⟨⟨ts ++ [ '.' ], by rw [ht]; rfl⟩, ⟨t, rfl⟩, ?_⟩
    rw [hu]
    exact wc_append_last_nonws u [ '.' ] d hd
      (by intro x hx; simp at hx; subst hx; decide)

/-- A nonempty result of the final stage of `rewrite_bullet` has a
non-whitespace head, ends with a period, and has 6–60 words. -/
theorem rewriteCore_text (x : Str) (h : rewriteCore x ≠ []) :
    TextForm 6 60 (rewriteCore x) := by
  unfold rewriteCore at h ⊢
  dsimp only at h ⊢
  split_ifs at h ⊢ with hg
  · exact absurd rfl h
  · simp only [Bool.or_eq_true, not_or, Nat.blt_eq] at hg
    obtain ⟨h1, h2⟩ := hg
    unfold MIN_BULLET_WORDS at h1
    unfold MAX_BULLET_WORDS at h2
    have hwlo : 6 ≤ wc (pyStrip (collapseWs (remBrackets (remParens x)))) := by omega
    have hwhi : wc (pyStrip (collapseWs (remBrackets (remParens x)))) ≤ 60 := by omega
    obtain ⟨⟨c, ts, hcts, hc⟩, ⟨u, d, hud, hd⟩⟩ :=
      pyStrip_form (collapseWs (remBrackets (remParens x))) (by omega)
    obtain ⟨c2, ts2, hup, hc2⟩ :=
      upperFirst_head (pyStrip (collapseWs (remBrackets (remParens x)))) c ts hcts hc
    obtain ⟨v, e, hve, he⟩ :=
      upperFirst_last_nonws (pyStrip (collapseWs (remBrackets (remParens x)))) u d hud hd
    obtain ⟨⟨ts3, hdot⟩, hends, hwceq⟩ :=
      ensureDot_form (upperFirst (pyStrip (collapseWs (remBrackets (remParens x)))))
        c2 ts2 v e hup hc2 hve he
    refine ⟨⟨c2, ts3, hdot, hc2⟩, hends, ?_, ?_⟩
    · rw [hwceq, wc_upperFirst]
      exact hwlo
    · rw [hwceq, wc_upperFirst]
      exact hwhi

theorem rw_ite_cases (c : Prop) [Decidable c] (a b : Str)
    (ha : a = [] ∨ ∃ x, a = rewriteCore x)
    (hb : b = [] ∨ ∃ x, b = rewriteCore x) :
    (if c then a else b) = [] ∨ ∃ x, (if c then a else b) = rewriteCore x := by
  split
  · exact ha
  · exact hb

theorem rewriteBullet_cases (s : Str) :
    rewriteBullet s = [] ∨ ∃ x, rewriteBullet s = rewriteCore x := by
  unfold rewriteBullet
  dsimp only
  exact rw_ite_cases _ _ _ (Or.inl rfl) (rw_ite_cases _ _ _ (Or.inl rfl)
    (rw_ite_cases _ _ _ (Or.inl rfl) (rw_ite_cases _ _ _ (Or.inl rfl)
    (rw_ite_cases _ _ _ (Or.inl rfl) (rw_ite_cases _ _ _ (Or.inl rfl)
    (rw_ite_cases _ _ _ (Or.inl rfl) (rw_ite_cases _ _ _ (Or.inl rfl)
    (rw_ite_cases _ _ _ (Or.inl rfl) (rw_ite_cases _ _ _ (Or.inl rfl)
    (rw_ite_cases _ _ _ (Or.inl rfl) (Or.inr ⟨_, rfl⟩)))))))))))

theorem rewriteBullet_text (s : Str) (h : rewriteBullet s ≠ []) :
    TextForm 6 60 (rewriteBullet s) := by
  rcases rewriteBullet_cases s with hc | ⟨x, hx⟩
  · exact absurd hc h
  · rw [hx] at h ⊢
    exact rewriteCore_text x h

theorem stripStarStrip_pyStrip (b : Str) : ∃ s, stripStarStrip b = pyStrip s := by
  unfold stripStarStrip
  dsimp only
  split_ifs
  · exact ⟨_, rfl⟩
  · exact ⟨b, rfl⟩

/-- Every bullet emitted by `final_bullets` is `"* "` plus a text with 6–60
words, non-whitespace head, and terminal period. -/
theorem finalBulletsGo_form : ∀ (cands seen : List Str),
    ∀ b ∈ finalBulletsGo cands seen, BulletForm 6 60 false b := by
  intro cands
  induction cands with
  | nil => intro seen b hb; simp [finalBulletsGo] at hb
  | cons b0 rest ih =>
    intro seen b hb
    unfold finalBulletsGo at hb
    dsimp only at hb
    split_ifs at hb with he hlo hhi hsig hseen
    · exact ih seen b hb
    · exact ih seen b hb
    · exact ih seen b hb
    · exact ih seen b hb
    · exact ih seen b hb
    · rcases List.mem_cons.mp hb with hbe | hbr
      · subst hbe
        rw [Nat.blt_eq] at hlo hhi
        unfold MIN_BULLET_WORDS at hlo
        unfold MAX_BULLET_WORDS at hhi
        obtain ⟨s, hs⟩ := stripStarStrip_pyStrip b0
        rw [hs] at hlo hhi ⊢
        obtain ⟨hh, hl⟩ := pyStrip_form s (by omega)
        obtain ⟨c2, ts2, heq, hc2, hends, hwc⟩ :=
          ensureDot_rstrip_wc (pyStrip s) hh hl (by omega)
        rw [heq]
        apply bulletForm_of_text
        obtain ⟨c3, ts3, hup, hc3⟩ := upperFirst_head (c2 :: ts2) c2 ts2 rfl hc2
        refine ⟨⟨c3, ts3, hup, hc3⟩, upperFirst_ends_dot _ hends, ?_, ?_⟩
        · rw [wc_upperFirst, hwc]; omega
        · rw [wc_upperFirst, hwc]; omega
      · exact ih _ b hbr

theorem finalBullets_form (cands : List Str) :
    ∀ b ∈ finalBullets cands, BulletForm 6 60 false b :=
  finalBulletsGo_form cands []

/-- `add_one_more_safe_bullet` only appends a bullet built from a nonempty
`rewrite_bullet` result. -/
theorem addOne_form (existing sentences : List Str) (target : Nat)
    (hex : ∀ b ∈ existing, BulletForm 6 60 false b) :
    ∀ b ∈ addOneMoreSafeBullet existing sentences target,
      BulletForm 6 60 false b := by
  intro b hb
  unfold addOneMoreSafeBullet at hb
  split_ifs at hb
  · exact hex b hb
  · revert hb
    cases hscan : addOneScan (existing.map lowerS) sentences with
    | none => exact fun hb => hex b hb
    | some rb =>
      intro hb
      rcases List.mem_append.mp hb with hb1 | hb2
      · exact hex b hb1
      · have hbeq : b = s2l ("* ") ++ rb := by simpa using hb2
        have hrb : ∃ s, rb = rewriteBullet s ∧ rewriteBullet s ≠ [] := by
          clear hb hb2 hbeq
          induction sentences with
          | nil => cases hscan
          | cons s0 srest ihs =>
            unfold addOneScan at hscan
            dsimp only at hscan
            split_ifs at hscan with g1 g2 g3 g4 g5 g6
            · exact ihs hscan
            · exact ihs hscan
            · exact ihs hscan
            · exact ihs hscan
            · exact ihs hscan
            · exact ihs hscan
            · refine ⟨pyStrip s0, ?_, ?_⟩
              · exact (Option.some_injective _ hscan).symm
              · intro hemp
                rw [hemp] at g6
                exact g6 rfl
        obtain ⟨s, hrbs, hne⟩ := hrb
        rw [hbeq, hrbs]
        exact bulletForm_of_text 6 60 _ (rewriteBullet_text s hne)

/-- All bullets of the rule-based fallback path (through the second
`light_polish_bullet` pass) are `"* "` plus a 6–62-word period-terminated
text matching no dangling-ending pattern. -/
theorem sectionBulletsPre_form (secName : Str) (sentences : List Str)
    (target : Nat) :
    ∀ b ∈ sectionBulletsPre secName sentences target, BulletForm 6 62 true b := by
  intro b hb
  unfold sectionBulletsPre at hb
  dsimp only at hb
  obtain ⟨b8, hb8, hmap⟩ := List.mem_map.mp hb
  have hfb : ∀ x ∈ finalBullets (sentences.map rewriteBullet),
      BulletForm 6 60 false x := finalBullets_form _
  have hao : ∀ x ∈ addOneMoreSafeBullet (finalBullets (sentences.map rewriteBullet))
      sentences target, BulletForm 6 60 false x :=
    addOne_form _ _ _ hfb
  have hlp : ∀ x ∈ (addOneMoreSafeBullet (finalBullets (sentences.map rewriteBullet))
      sentences target).map lightPolishBullet, BulletForm 6 62 true x := by
    intro x hx
    obtain ⟨y, hy, hxy⟩ := List.mem_map.mp hx
    rw [← hxy]
    exact lightPolish_grow 6 60 y (by omega) (hao y hy)
  have he := enhance_form 6 62 true _ hlp
  have hp := polish_form 6 62 true _ he
  have hd : ∀ x ∈ deduplicateBullets (polishBullets (enhanceBulletFlow
      ((addOneMoreSafeBullet (finalBullets (sentences.map rewriteBullet))
        sentences target).map lightPolishBullet))), BulletForm 6 62 true x :=
    fun x hx => hp x (dedupGo_subset _ _ x hx)
  have hr : ∀ x ∈ removeLowSignalBullets (deduplicateBullets (polishBullets
      (enhanceBulletFlow ((addOneMoreSafeBullet (finalBullets
        (sentences.map rewriteBullet)) sentences target).map lightPolishBullet)))),
      BulletForm 6 62 true x :=
    fun x hx => hd x (removeLowSignal_subset _ x hx)
  have hl8 : BulletForm 6 62 true b8 :=
    hr b8 (limit_subset secName _ b8 hb8)
  rw [← hmap]
  exact lightPolish_keep 6 62 b8 hl8

/-- The stages after the emptiness check preserve the bullet shape. -/
theorem sectionBulletsPost_form (secName : Str) (b9 : List Str)
    (h : ∀ b ∈ b9, BulletForm 6 62 true b) :
    ∀ b ∈ sectionBulletsPost secName b9, BulletForm 6 62 true b := by
  intro b hb
  unfold sectionBulletsPost at hb
  dsimp only at hb
  have he := enhance_form 6 62 true b9 h
  have hp := polish_form 6 62 true _ he
  have hd : ∀ x ∈ deduplicateBullets (polishBullets (enhanceBulletFlow b9)),
      BulletForm 6 62 true x :=
    fun x hx => hp x (dedupGo_subset _ _ x hx)
  have hr : ∀ x ∈ removeLowSignalBullets (deduplicateBullets (polishBullets
      (enhanceBulletFlow b9))), BulletForm 6 62 true x :=
    fun x hx => hd x (removeLowSignal_subset _ x hx)
  exact hr b (limit_subset secName _ b hb)

/-- Every bullet of every slide entry built from one section satisfies the
shape invariant. -/
theorem sectionStep_bullets (pagesImages : List (Nat × List PImg))
    (used : List Str) (sec : PSec) :
    ∀ e ∈ (sectionStep pagesImages used sec).1, ∀ b ∈ e.bullets,
      BulletForm 6 62 true b := by
  intro e he b hb
  unfold sectionStep at he
  dsimp only at he
  split_ifs at he
  all_goals first
    | (obtain ⟨pr, hpr, hepr⟩ := List.mem_map.mp he
       have hbul : e.bullets = pr.2 := by rw [← hepr]
       rw [hbul] at hb
       exact sectionBulletsPost_form _ _ (sectionBulletsPre_form _ _ _) b
         (chunkBullets_mem _ pr.2 b (mem_enum_snd _ pr hpr) hb))
    | exact absurd he (List.not_mem_nil e)

theorem genFold_bullets (pagesImages : List (Nat × List PImg)) :
    ∀ (secs : List PSec) (used : List Str),
      ∀ e ∈ (genFold pagesImages secs used).1, ∀ b ∈ e.bullets,
        BulletForm 6 62 true b := by
  intro secs
  induction secs with
  | nil => intro used e he; simp [genFold] at he
  | cons s rest ih =>
    intro used e he b hb
    unfold genFold at he
    dsimp only at he
    rcases List.mem_append.mp he with h1 | h2
    · exact sectionStep_bullets pagesImages used s e h1 b hb
    · exact ih _ e h2 b hb

/-- C2 (amended): every bullet string in every slide-plan entry produced by
`generate_slides` (rule-based path, LLM disabled) is `"* "` plus a text that
ends with `'.'` and has a word count between `MIN_BULLET_WORDS = 6` and
`MAX_BULLET_WORDS + 2 = 62` inclusive: the dangling-ending fix of
`light_polish_bullet` can append the two words `"in practice"` after the
60-word gate of `final_bullets` / `rewrite_bullet` has run. -/
theorem c2_bullet_bounds (pagesText : List Str)
    (pagesImages : List (Nat × List PImg)) (e : SlideEntry)
    (he : e ∈ genSlidesPlan pagesText pagesImages) (b : Str)
    (hb : b ∈ e.bullets) :
    ∃ t, b = s2l ("* ") ++ t ∧ (∃ u, t = u ++ [ '.' ]) ∧
      MIN_BULLET_WORDS ≤ wc t ∧ wc t ≤ MAX_BULLET_WORDS + 2 := by
  obtain ⟨t, h1, _, h3, h4, h5, _⟩ :=
    genFold_bullets pagesImages (splitIntoSections pagesText) [] e he b hb
  refine ⟨t, h1, h3, ?_, ?_⟩
  · unfold MIN_BULLET_WORDS
    omega
  · unfold MAX_BULLET_WORDS
    omega

/-- C2 counterexample: on `c2pages` the plan contains a bullet whose text
part has 61 > `MAX_BULLET_WORDS` = 60 words, refuting the claimed upper
bound. -/
theorem c2_counterexample :
    ¬ (∀ e ∈ genSlidesPlan c2pages [], ∀ b ∈ e.bullets,
        wc (b.drop 2) ≤ MAX_BULLET_WORDS) := by decide

theorem c2_witness :
    ∃ t, ((genSlidesPlan c2pages []).headD
        (SlideEntry.mk [] [] [])).bullets.headD [] = s2l ("* ") ++ t ∧
      (∃ u, t = u ++ [ '.' ]) ∧
      MIN_BULLET_WORDS ≤ wc t ∧ wc t ≤ MAX_BULLET_WORDS + 2 :=
  c2_bullet_bounds c2pages []
    ((genSlidesPlan c2pages []).headD (SlideEntry.mk [] [] []))
    (by decide)
    (((genSlidesPlan c2pages []).headD (SlideEntry.mk [] [] [])).bullets.headD [])
    (by decide)
